import Mathlib

/-!
Shallow embedding of the SDLMA-Core TEDS codec
(`src/sdlma_teds/teds.py`, `src/sdlma_teds/teds_element.py`)
and a verification of its specification.

Modelling conventions:
* A `bitstring.Bits` / `BitStream` value is a `List Bool`, first bit of the
  buffer first, matching the library's left-to-right order.
* `int.from_bytes(x, signed=False)` applied to a byte-aligned bitstring is
  the big-endian value of its bits (`bitsToNatBE`).
* Python floats are modelled as exact rational numbers, represented by the
  unreduced fractions `Frac` (so that the codec stays kernel-evaluable on
  concrete buffers); `Frac.toRat` maps them to `ℚ` for reasoning.  The
  `math.log`-based inverse in `ConRelResTedsElement.to_bits` is modelled by
  its exact value: an integer exponent when one exists, an encode error
  otherwise, since `Bits(uint=...)` rejects a non-integer.
* `datetime` values are modelled as the number of days since 1998-01-01.
* Raised exceptions are modelled by `Except TedsError`.
-/

namespace SDLMA

abbrev Bits := List Bool

/-- Equality of `Except` results is decidable (used to evaluate the codec
on concrete buffers). -/
instance {ε α : Type} [DecidableEq ε] [DecidableEq α] :
    DecidableEq (Except ε α) := fun a b =>
  match a, b with
  | .ok x, .ok y =>
      if h : x = y then isTrue (by rw [h])
      else isFalse (fun hh => by cases hh; exact h rfl)
  | .error x, .error y =>
      if h : x = y then isTrue (by rw [h])
      else isFalse (fun hh => by cases hh; exact h rfl)
  | .ok _, .error _ => isFalse (fun hh => by cases hh)
  | .error _, .ok _ => isFalse (fun hh => by cases hh)

/-- Errors raised by the codec, named after the spec's taxonomy.
`outOfRangeRead` is bitstring's `ReadError`, `invalidPreamble` the
`ValueError` of the preamble check, `unsupportedBranch` the
`NotImplementedError` of the force branches, `valueError` the bare
`ValueError()` of the selector dispatch, and `creationError` bitstring's
`CreationError` when `Bits(uint=v, length=n)` is given a non-integer or
out-of-range value. -/
inductive TedsError where
  | outOfRangeRead
  | invalidPreamble
  | unsupportedBranch
  | valueError
  | creationError
  deriving Repr, DecidableEq

/-- Big-endian value of a bit list: `int.from_bytes(x, signed=False)`
for a byte-aligned bitstring. -/
def bitsToNatBE (bs : Bits) : ℕ := bs.foldl (fun a b => 2 * a + b.toNat) 0

/-- Value of a bit list read least-significant-bit first. -/
def bitsLSB : Bits → ℕ
  | [] => 0
  | b :: t => b.toNat + 2 * bitsLSB t

/-- `BasicTedsElement.zero_pad_bitstream`: append zero bits up to the next
whole byte boundary (`math.ceil(len/8)*8`). -/
def zero_pad_bitstream (bs : Bits) : Bits :=
  bs ++ List.replicate ((bs.length + 7) / 8 * 8 - bs.length) false

/-- `BasicTedsElement.reverse_bitstream`: `bitstream[::-1]`. -/
def reverse_bitstream (bs : Bits) : Bits := bs.reverse

/-- `Bits(uint=v, length=len)`: the fixed-width big-endian bit pattern of
an unsigned integer. -/
def natToBitsBE (len v : ℕ) : Bits :=
  (List.range len).map (fun i => v.testBit (len - 1 - i))

/-- The numeric interpretation the decode path applies to a raw field
window: `int.from_bytes(reverse_bitstream(zero_pad_bitstream(bits)))`. -/
def decodeVal (bs : Bits) : ℕ :=
  bitsToNatBE (reverse_bitstream (zero_pad_bitstream bs))

/-- `BasicTedsElement.to_bitstream`:
`reverse_bitstream(Bits(uint=int_val, length=self.len))`; `Bits` raises
`CreationError` when the value does not fit in `len` bits. -/
def to_bitstream (len v : ℕ) : Except TedsError Bits :=
  if v < 2 ^ len then .ok (reverse_bitstream (natToBitsBE len v))
  else .error .creationError


/-- Exact value of a Python float, as an unreduced fraction.  Arithmetic
never normalizes (so it evaluates inside the kernel); `Frac.eqv` is the
semantic equality the Python `==`/`!=` on floats denotes.  All fractions
the codec builds have nonzero denominators. -/
structure Frac where
  num : ℤ
  den : ℤ
  deriving Repr, DecidableEq

instance : Add Frac :=
  ⟨fun x y => ⟨x.num * y.den + y.num * x.den, x.den * y.den⟩⟩

instance : Sub Frac :=
  ⟨fun x y => ⟨x.num * y.den - y.num * x.den, x.den * y.den⟩⟩

instance : Mul Frac := ⟨fun x y => ⟨x.num * y.num, x.den * y.den⟩⟩

instance : Div Frac := ⟨fun x y => ⟨x.num * y.den, x.den * y.num⟩⟩

instance : Neg Frac := ⟨fun x => ⟨-x.num, x.den⟩⟩

instance (n : ℕ) : OfNat Frac n := ⟨⟨n, 1⟩⟩

instance : NatCast Frac := ⟨fun n => ⟨n, 1⟩⟩

instance : Pow Frac ℕ :=
  ⟨fun x n => Nat.rec (⟨1, 1⟩ : Frac) (fun _ acc => acc * x) n⟩

/-- Decimal literals such as `5e-7` or `0.03`. -/
instance : OfScientific Frac :=
  ⟨fun m sign e =>
    if sign then ⟨m, (10 : ℤ) ^ e⟩ else ⟨(m : ℤ) * (10 : ℤ) ^ e, 1⟩⟩

/-- Semantic equality of two fractions (the value comparison Python's
`==` performs). -/
def Frac.eqv (x y : Frac) : Bool := x.num * y.den == y.num * x.den

/-- The rational value of a fraction. -/
def Frac.toRat (x : Frac) : ℚ := (x.num : ℚ) / (x.den : ℚ)

/-- A field specification: the constructor arguments of one
`...TedsElement(...)` call in `teds.py`, i.e. the element with its `len`
and (for the scaled kinds) `start`/`step` parameters, before any value has
been read.  `ascii` keeps the source's `len = -1` convention for the
remainder field.  `const` is `ConstantTedsElement(0, val=...)`. -/
inductive FSpec where
  | unInt (len : ℕ)
  | chr5 (len : ℕ)
  | ascii (len : ℤ)
  | date (len : ℕ)
  | conRes (len : ℕ) (start step : Frac)
  | conRelRes (len : ℕ) (start step : Frac)
  | const (val : String)
  deriving Repr, DecidableEq

/-- A decoded element: the spec together with the `val` attribute set by
`from_bits`.  String-valued kinds store the list of character codes,
`date` the day offset from 1998-01-01, the scaled kinds their exact
rational value. -/
inductive TElem where
  | unInt (len : ℕ) (val : ℕ)
  | chr5 (len : ℕ) (val : List ℕ)
  | ascii (len : ℤ) (val : List ℕ)
  | date (len : ℕ) (val : ℕ)
  | conRes (len : ℕ) (start step : Frac) (val : Frac)
  | conRelRes (len : ℕ) (start step : Frac) (val : Frac)
  | const (val : String)
  deriving Repr, DecidableEq

/-- The `len` attribute `StandardTeds.process` reads off an element
(`ConstantTedsElement` instances are created with `len = 0`). -/
def FSpec.lenAttr : FSpec → ℤ
  | .unInt n => n
  | .chr5 n => n
  | .ascii n => n
  | .date n => n
  | .conRes n _ _ => n
  | .conRelRes n _ _ => n
  | .const _ => 0

/-- The complete `n`-bit groups of a bit list, in order; a trailing group
of fewer than `n` bits is not included. -/
def bitGroups (n : ℕ) (bs : Bits) : List Bits :=
  (List.range (bs.length / n)).map (fun i => (bs.drop (n * i)).take n)

/-- `Chr5TedsElement.from_bits`: each 5-bit group is read, padded,
reversed and offset by `ord('`') = 96`.  The source's
`for i in range(0, len(bitstream), 5)` loop `read(5)`s past the end and
raises when the width is not a multiple of 5. -/
def chr5FromBits (bs : Bits) : Except TedsError (List ℕ) :=
  if bs.length % 5 = 0 then
    .ok ((bitGroups 5 bs).map (fun g => 96 + decodeVal g))
  else .error .outOfRangeRead

/-- `AsciiTedsElement.from_bits`: the `if bitstream.len - bitstream.pos >= 7`
guard keeps only the complete 7-bit groups, so this decode never fails. -/
def asciiFromBits (bs : Bits) : List ℕ :=
  (bitGroups 7 bs).map (fun g => decodeVal g)

/-- Least-significant-first binary digits of a positive number; `fuel`
only bounds the recursion and any `fuel ≥ n` is exact. -/
def binDigitsRev : ℕ → ℕ → Bits
  | 0, _ => []
  | fuel + 1, n =>
      if n = 0 then [] else decide (n % 2 = 1) :: binDigitsRev fuel (n / 2)

/-- `bin(c)[2:]`: the minimal-width big-endian digits of `c`
(`bin(0)` is `"0"`, one digit). -/
def pyBin (c : ℕ) : Bits :=
  if c = 0 then [false] else (binDigitsRev c c).reverse

/-- `str.zfill(n)` on a digit string: left-pad with zeros to width `n`
(no effect when already at least `n` long). -/
def zfill (n : ℕ) (bs : Bits) : Bits :=
  List.replicate (n - bs.length) false ++ bs

/-- `s[-n:]`: the last `n` elements. -/
def takeLast (n : ℕ) (bs : Bits) : Bits := bs.drop (bs.length - n)

/-- One character of `Chr5TedsElement.to_bits`:
`bin(ord(char))[2:].zfill(5)[-5:][::-1]`. -/
def chr5CharBits (c : ℕ) : Bits := (takeLast 5 (zfill 5 (pyBin c))).reverse

/-- One character of `AsciiTedsElement.to_bits`:
`bin(ord(char))[2:].zfill(7)[::-1]` (note: no truncation). -/
def asciiCharBits (c : ℕ) : Bits := (zfill 7 (pyBin c)).reverse

/-- The quotient computed by the scaled encoders, handed to
`Bits(uint=...)`: the bit packer accepts only a non-negative integer; the
source applies no rounding, so a non-integral quotient is a
`CreationError`. -/
def fracToUInt (x : Frac) : Except TedsError ℕ :=
  if x.den ∣ x.num ∧ 0 ≤ x.num / x.den then .ok (x.num / x.den).toNat
  else .error .creationError

/-- Exact-arithmetic model of
`math.log(val / start) / math.log(1 + 2 * step)` in
`ConRelResTedsElement.to_bits`: the unique exponent `n` with
`b ^ n = q` when one exists below the fuel bound; any other real result
is a non-integer, which `Bits(uint=...)` rejects. -/
def expLog (b q : Frac) : ℕ → Frac → Option ℕ
  | 0, acc => if acc.eqv q then some 0 else none
  | fuel + 1, acc =>
      if acc.eqv q then some 0 else (expLog b q fuel (acc * b)).map (· + 1)

/-- `BasicTedsElement`-subclass `to_bits` methods (`write_teds_to_file`
never calls `ConstantTedsElement.to_bits`, which just returns `None`;
it is rendered here as the empty bit list). -/
def TElem.to_bits : TElem → Except TedsError Bits
  | .unInt len v => to_bitstream len v
  | .chr5 _ cs => .ok (cs.flatMap chr5CharBits)
  | .ascii _ cs => .ok (cs.flatMap asciiCharBits)
  | .date len d => to_bitstream len d
  | .conRes len start step v => do
      let raw ← fracToUInt ((v - start) / step)
      to_bitstream len raw
  | .conRelRes len start step v =>
      match expLog (1 + 2 * step) (v / start) (2 ^ len) 1 with
      | some n => to_bitstream len n
      | none => .error .creationError
  | .const _ => .ok []

/-- The `from_bits` method of the element a spec describes, applied to the
window `process` read for it. -/
def FSpec.fromBits : FSpec → Bits → Except TedsError TElem
  | .unInt len, w => .ok (.unInt len (decodeVal w))
  | .chr5 len, w => do
      let cs ← chr5FromBits w
      .ok (.chr5 len cs)
  | .ascii len, w => .ok (.ascii len (asciiFromBits w))
  | .date len, w => .ok (.date len (decodeVal w))
  | .conRes len start step, w =>
      .ok (.conRes len start step (start + (decodeVal w : Frac) * step))
  | .conRelRes len start step, w =>
      .ok (.conRelRes len start step (start * (1 + 2 * step) ^ decodeVal w))
  | .const v, _ => .ok (.const v)

/-- The read position of a `BitStream`: the buffer plus `pos`. -/
structure Cursor where
  bits : Bits
  pos : ℕ
  deriving Repr, DecidableEq

/-- `BitStream.read(n)`: returns the next `n` bits and advances `pos`;
bitstring raises `ReadError` when fewer than `n` bits remain. -/
def csRead (n : ℕ) (c : Cursor) : Except TedsError (Bits × Cursor) :=
  if c.pos + n ≤ c.bits.length then
    .ok ((c.bits.drop c.pos).take n, ⟨c.bits, c.pos + n⟩)
  else .error .outOfRangeRead

/-- `self.bitstream.read(self.bitstream.len - self.bitstream.pos)`:
the remainder read used for `len == -1` fields. -/
def csReadRemainder (c : Cursor) : Bits × Cursor :=
  (c.bits.drop c.pos, ⟨c.bits, c.bits.length⟩)

/-- The accumulated `self.teds` dictionary: insertion-ordered names with
their decoded elements (all names the codec produces are distinct). -/
abbrev Doc := List (String × TElem)

/-- `StandardTeds.process`: read each field's window (`read(len)`, or the
remainder when `len == -1`), run its `from_bits`, and append the decoded
elements to the document. -/
def process : List (String × FSpec) → Doc → Cursor → Except TedsError (Doc × Cursor)
  | [], doc, c => .ok (doc, c)
  | (name, sp) :: rest, doc, c =>
      (if sp.lenAttr = -1 then .ok (csReadRemainder c)
       else csRead sp.lenAttr.toNat c).bind (fun wc =>
        (sp.fromBits wc.1).bind (fun e =>
          process rest (doc ++ [(name, e)]) wc.2))

/-- Dictionary lookup `self.teds[name]` (keys are unique per decode). -/
def getElem? (doc : Doc) (name : String) : Option TElem :=
  (doc.find? (fun p => p.1 = name)).map (fun p => p.2)

/-- `self.teds[name].val` for an unsigned-integer field. -/
def uintVal? (doc : Doc) (name : String) : Option ℕ :=
  match getElem? doc name with
  | some (.unInt _ v) => some v
  | _ => none

def headerSpecs : List (String × FSpec) :=
  [("manufacturer_id", .unInt 14),
   ("model_number", .unInt 15),
   ("version_letter", .unInt 5),
   ("version_number", .unInt 6),
   ("serial_number", .unInt 24),
   ("start_selector", .unInt 2),
   ("template_id", .unInt 8)]

def accelSelectorSpecs : List (String × FSpec) :=
  [("acceleration_force", .unInt 1),
   ("extended_functionality", .unInt 1)]

def accelNoExtSpecs : List (String × FSpec) :=
  [("sens_ref", .conRelRes 16 5e-7 0.00015),
   ("tf_hp_s", .conRelRes 8 0.005 0.03)]

def accelExtSpecs : List (String × FSpec) :=
  [("passive", .const "0"),
   ("passive_ctrl_function_mask", .const "0b11"),
   ("passive_read_write", .const "3"),
   ("passive_function_type", .const "0"),
   ("passive_function", .const "xx,00"),
   ("sens_initialize", .const "0"),
   ("sens_ctrl_function_mask", .const "0"),
   ("sens_read_write", .const "3"),
   ("sens_function_type", .const "1"),
   ("sens_function_10", .const "10"),
   ("sens_function_01", .const "10"),
   ("default_fr", .unInt 2),
   ("multiplexer_capable", .unInt 1),
   ("sens_ref_01", .conRelRes 16 5e-7 1),
   ("sens_ref_10", .conRelRes 16 5e-7 1),
   ("tf_hp_s_01", .conRelRes 8 0.005 1),
   ("tf_hp_s_10", .conRelRes 8 0.005 1)]

def accelCommonSpecs : List (String × FSpec) :=
  [("direction", .unInt 2),
   ("transducer_weight", .conRelRes 6 0.1 0.1),
   ("elec_sig_type", .const "Voltage Sensor"),
   ("map_method", .const "Linear"),
   ("ACDCCoupling", .const "AC"),
   ("sign", .unInt 1),
   ("transfer_function", .unInt 1)]

def transferFunctionSpecs : List (String × FSpec) :=
  [("tf_sp", .conRelRes 7 10 0.05),
   ("tf_kpr", .conRelRes 9 100 0.01),
   ("tf_kpq", .conRelRes 9 0.4 0.01),
   ("tf_sl", .conRes 7 (-6.3) 0.1),
   ("temp_coef", .conRes 6 (-0.8) 0.025)]

def refSpecs : List (String × FSpec) :=
  [("ref_req", .conRelRes 8 0.35 0.0175),
   ("ref_temp", .conRes 5 15 0.5)]

def thermocoupleSpecs : List (String × FSpec) :=
  [("elec_sig_type", .const "Voltage Sensor"),
   ("minimum_temperature", .conRes 11 (-273) 1),
   ("maximum_temperature", .conRes 11 (-273) 1),
   ("minimum_electrical_output", .conRes 7 (-0.025) 0.001),
   ("maximum_electrical_output", .conRes 7 (-0.025) 0.001),
   ("mapping_method", .const "Voltage Sensor"),
   ("thermocouple_type", .unInt 4),
   ("cjc_required_or_compensated", .unInt 1),
   ("thermocouple_resistance", .conRelRes 12 1 1),
   ("sensor_response_time", .conRelRes 6 1e-6 1)]

def trailerSpecs : List (String × FSpec) :=
  [("calibration_date", .date 16),
   ("calibration_initals", .chr5 15),
   ("calibration_period", .unInt 12),
   ("measurement_location_id", .unInt 11),
   ("end_selector", .unInt 2),
   ("extended_end_selector", .unInt 1),
   ("user_data", .ascii (-1))]

/-- The fixed-width entries of `end_template`'s dictionary (everything
before the remainder field `user_data`). -/
def trailerFixedSpecs : List (String × FSpec) :=
  [("calibration_date", .date 16),
   ("calibration_initals", .chr5 15),
   ("calibration_period", .unInt 12),
   ("measurement_location_id", .unInt 11),
   ("end_selector", .unInt 2),
   ("extended_end_selector", .unInt 1)]

/-- `StandardTeds.accelerometer_force_template`: read the two selector
bits, dispatch on their values, then the common fields, the optional
transfer-function block and the reference conditions.  The two force
branches raise `NotImplementedError`; the unreachable final `else` is a
bare `ValueError()`. -/
def accelerometer_force_template (doc : Doc) (c : Cursor) :
    Except TedsError (Doc × Cursor) :=
  (process accelSelectorSpecs doc c).bind (fun dc =>
    (if uintVal? dc.1 "acceleration_force" = some 0 ∧
        uintVal? dc.1 "extended_functionality" = some 0 then
      process accelNoExtSpecs dc.1 dc.2
    else if uintVal? dc.1 "acceleration_force" = some 1 ∧
        uintVal? dc.1 "extended_functionality" = some 0 then
      .error .unsupportedBranch
    else if uintVal? dc.1 "acceleration_force" = some 0 ∧
        uintVal? dc.1 "extended_functionality" = some 1 then
      process accelExtSpecs dc.1 dc.2
    else if uintVal? dc.1 "acceleration_force" = some 1 ∧
        uintVal? dc.1 "extended_functionality" = some 1 then
      .error .unsupportedBranch
    else .error .valueError).bind (fun dc2 =>
      (process accelCommonSpecs dc2.1 dc2.2).bind (fun dc3 =>
        (if uintVal? dc3.1 "transfer_function" = some 1 then
          process transferFunctionSpecs dc3.1 dc3.2
        else .ok dc3).bind (fun dc4 =>
          process refSpecs dc4.1 dc4.2))))

/-- `StandardTeds.thermocouple_template`. -/
def thermocouple_template (doc : Doc) (c : Cursor) :
    Except TedsError (Doc × Cursor) :=
  process thermocoupleSpecs doc c

/-- `StandardTeds.load_template`: a `match` on the template id with cases
for 25 and 36 only — any other id falls through and leaves the state
untouched. -/
def load_template (tid : ℕ) (doc : Doc) (c : Cursor) :
    Except TedsError (Doc × Cursor) :=
  match tid with
  | 25 => accelerometer_force_template doc c
  | 36 => thermocouple_template doc c
  | _ => .ok (doc, c)

/-- The vendor preamble `0xDA6E0CCCBA` as 40 bits. -/
def preambleBits : Bits := natToBitsBE 40 0xDA6E0CCCBA

/-- `StandardTeds.__init__` after the optional preamble handling: header,
legacy-version check (a print only), template dispatch, common trailer.
The `self.teds["template_id"]` dictionary access cannot fail after the
header has been processed; a missing key would be a `KeyError`
(`valueError` here). -/
def decodeRest (c : Cursor) : Except TedsError Doc :=
  (process headerSpecs [] c).bind (fun dc =>
    (match uintVal? dc.1 "template_id" with
      | some t => Except.ok t
      | none => Except.error TedsError.valueError).bind (fun tid =>
      (load_template tid dc.1 dc.2).bind (fun dc2 =>
        (process trailerSpecs dc2.1 dc2.2).bind (fun dc3 => .ok dc3.1))))

/-- `StandardTeds.__init__`: with `has_preamble` the first 40 bits are
read and compared against `ni_preamble` (`ValueError` on mismatch), then
decoding proceeds; without it the header starts at bit 0. -/
def decodeTeds (s : Bits) (has_preamble : Bool) : Except TedsError Doc :=
  if has_preamble then
    match csRead 40 ⟨s, 0⟩ with
    | .error e => .error e
    | .ok pc =>
        if pc.1 ≠ preambleBits then .error .invalidPreamble else decodeRest pc.2
  else decodeRest ⟨s, 0⟩

/-- The field-emission loop of `StandardTeds.write_teds_to_file`:
`ConstantTedsElement` entries are skipped, every other element contributes
its `to_bits()`. -/
def encodeFields : Doc → Except TedsError Bits
  | [] => .ok []
  | (_, e) :: rest =>
      (match e with
        | .const _ => Except.ok []
        | e => e.to_bits).bind (fun b =>
        (encodeFields rest).bind (fun r => .ok (b ++ r)))

/-- `StandardTeds.write_teds_to_file` as a bitstream transform: the
output starts from `BitStream(cls.ni_preamble)` — the preamble is always
emitted — followed by the fields in document order.  (The subsequent
file write expands each bit into one byte; that framing is the dump-file
adapter, not part of the bit-level codec.) -/
def encodeTeds (teds : Doc) : Except TedsError Bits :=
  (encodeFields teds).bind (fun body => .ok (preambleBits ++ body))

/-- The decoded element of a field whose window read and `from_bits` both
succeed (every field `process` meets; the fallback constant is never
produced under `GoodWin`). -/
def fromBitsTotal (sp : FSpec) (w : Bits) : TElem :=
  match sp.fromBits w with
  | .ok e => e
  | .error _ => .const "unreachable"

/-- A window is well-shaped for a fixed-width spec: its length is the
spec's bit width (and a multiple of the character size for the string
kinds, as all template fields are). -/
def GoodWin : FSpec → Bits → Prop
  | .unInt n, w => n = w.length
  | .chr5 n, w => (n = w.length) ∧ w.length % 5 = 0
  | .ascii n, w => (n = (w.length : ℤ)) ∧ w.length % 7 = 0
  | .date n, w => n = w.length
  | .conRes n _ _, w => n = w.length
  | .conRelRes n _ _, w => n = w.length
  | .const _, w => w = []

/-- Numeric side conditions under which a scaled field's unrounded
inverse recovers the raw code in exact arithmetic (all template fields
satisfy them). -/
def RoundSpec : FSpec → Prop
  | .conRes _ start step => start.den ≠ 0 ∧ step.den ≠ 0 ∧ step.toRat ≠ 0
  | .conRelRes _ start step =>
      start.den ≠ 0 ∧ step.den ≠ 0 ∧ 0 < start.toRat ∧ 0 < step.toRat
  | _ => True

/-- The document fragment a run of fixed-width fields decodes from its
windows. -/
def docOf (specs : List (String × FSpec)) (ws : List Bits) : Doc :=
  List.zipWith (fun p w => (p.1, fromBitsTotal p.2 w)) specs ws

/-- A 131-bit buffer whose header carries `template_id = 99` (the 8 bits
at positions 66..73, LSB first) followed by exactly the 57 fixed trailer
bits; every other field is zero. -/
def stream99 : Bits :=
  List.replicate 66 false ++
    [true, true, false, false, false, true, true, false] ++
    List.replicate 57 false

/-- A 180-bit, preamble-less, syntactically valid accelerometer-basic
buffer: `template_id = 25` (LSB-first window at bits 66..73), both
selector bits 0, no transfer function, empty user data, all other fields
zero. -/
def streamAccelNoPre : Bits :=
  List.replicate 66 false ++
    [true, false, false, true, true, false, false, false] ++
    List.replicate 106 false

/-- As `streamAccelNoPre` but with a nonzero manufacturer id, so the two
fixtures stay distinct. -/
def streamAccelNoPre2 : Bits :=
  true :: (List.replicate 65 false ++
    ([true, false, false, true, true, false, false, false] ++
      List.replicate 106 false))

/-- The alternative per-field emission discipline described in spec §4.1:
the value's bits zero-padded to the next whole byte boundary and then
reversed (compared below against what the encode path actually emits). -/
def paddedFieldBits (len v : ℕ) : Bits :=
  reverse_bitstream (zero_pad_bitstream (natToBitsBE len v))

section BitLemmas

theorem bitsToNatBE_go (ys : Bits) :
    ∀ a : ℕ, ys.foldl (fun a b => 2 * a + b.toNat) a =
      a * 2 ^ ys.length + bitsToNatBE ys := by
  induction ys with
  | nil => intro a; simp [bitsToNatBE]
  | cons b t ih =>
      intro a
      simp only [List.foldl_cons, List.length_cons, bitsToNatBE] at *
      rw [ih (2 * a + b.toNat), ih (2 * 0 + b.toNat)]
      ring

theorem bitsToNatBE_append (xs ys : Bits) :
    bitsToNatBE (xs ++ ys) = bitsToNatBE xs * 2 ^ ys.length + bitsToNatBE ys := by
  unfold bitsToNatBE
  rw [List.foldl_append]
  exact bitsToNatBE_go ys _

theorem bitsToNatBE_reverse (bs : Bits) : bitsToNatBE bs.reverse = bitsLSB bs := by
  induction bs with
  | nil => rfl
  | cons b t ih =>
      rw [List.reverse_cons, bitsToNatBE_append, ih]
      have hb : bitsToNatBE [b] = b.toNat := by simp [bitsToNatBE]
      rw [hb]
      show bitsLSB t * 2 ^ 1 + b.toNat = bitsLSB (b :: t)
      simp only [bitsLSB]
      ring

theorem bitsLSB_append (xs ys : Bits) :
    bitsLSB (xs ++ ys) = bitsLSB xs + 2 ^ xs.length * bitsLSB ys := by
  induction xs with
  | nil => simp [bitsLSB]
  | cons b t ih =>
      simp only [List.cons_append, bitsLSB, List.length_cons, List.append_eq]
      rw [ih]
      ring

theorem bitsLSB_replicate_false (k : ℕ) : bitsLSB (List.replicate k false) = 0 := by
  induction k with
  | zero => rfl
  | succ n ih => simp [List.replicate_succ, bitsLSB, ih]

/-- The decode path's numeric interpretation of an `n`-bit window is its
LSB-first value: padding with trailing zero bits and reversing yields the
big-endian form of the same number. -/
theorem decodeVal_eq_bitsLSB (bs : Bits) : decodeVal bs = bitsLSB bs := by
  unfold decodeVal reverse_bitstream zero_pad_bitstream
  rw [bitsToNatBE_reverse, bitsLSB_append, bitsLSB_replicate_false, Nat.mul_zero,
    Nat.add_zero]

theorem bitsLSB_lt (bs : Bits) : bitsLSB bs < 2 ^ bs.length := by
  induction bs with
  | nil => simp [bitsLSB]
  | cons b t ih =>
      simp only [bitsLSB, List.length_cons, pow_succ]
      cases b <;> simp [Bool.toNat] <;> omega

theorem testBit_bitsLSB (bs : Bits) : ∀ i : ℕ, (bitsLSB bs).testBit i = bs.getD i false := by
  induction bs with
  | nil => intro i; simp [bitsLSB]
  | cons b t ih =>
      intro i
      cases i with
      | zero =>
          simp only [bitsLSB, Nat.testBit_zero, List.getD_cons_zero]
          cases b <;> simp [Nat.add_mul_mod_self_left]
      | succ n =>
          simp only [bitsLSB, Nat.testBit_succ, List.getD_cons_succ]
          have h2 : (b.toNat + 2 * bitsLSB t) / 2 = bitsLSB t := by
            cases b <;> simp [Bool.toNat] <;> omega
          rw [h2, ih n]

theorem bitsLSB_range_map (len v : ℕ) (h : v < 2 ^ len) :
    bitsLSB ((List.range len).map (fun i => v.testBit i)) = v := by
  apply Nat.eq_of_testBit_eq
  intro i
  rw [testBit_bitsLSB]
  by_cases hi : i < len
  · rw [List.getD_eq_getElem _ _ (by simpa using hi)]
    simp
  · rw [List.getD_eq_default _ _ (by simpa using Nat.le_of_not_lt hi)]
    have : v < 2 ^ i :=
      lt_of_lt_of_le h (Nat.pow_le_pow_right (by norm_num) (Nat.le_of_not_lt hi))
    simp [Nat.testBit_lt_two_pow this]

theorem range_map_testBit_of_bitsLSB (bs : Bits) :
    (List.range bs.length).map (fun i => (bitsLSB bs).testBit i) = bs := by
  apply List.ext_getElem
  · simp
  · intro i h1 h2
    simp only [List.getElem_map, List.getElem_range]
    rw [testBit_bitsLSB, List.getD_eq_getElem _ _ (by simpa using h2)]

theorem natToBitsBE_reverse (len v : ℕ) :
    (natToBitsBE len v).reverse = (List.range len).map (fun i => v.testBit i) := by
  apply List.ext_getElem
  · simp [natToBitsBE]
  · intro i h1 h2
    have hlen : (natToBitsBE len v).length = len := by simp [natToBitsBE]
    have hi : i < len := by simpa [natToBitsBE] using h2
    rw [List.getElem_reverse]
    simp only [natToBitsBE, List.length_map, List.length_range, List.getElem_map,
      List.getElem_range]
    congr 1
    omega

/-- Encode-side characterization: `to_bitstream` emits exactly the `len`
bits of `v`, least significant bit first. -/
theorem to_bitstream_eq (len v : ℕ) (h : v < 2 ^ len) :
    to_bitstream len v = .ok ((List.range len).map (fun i => v.testBit i)) := by
  unfold to_bitstream reverse_bitstream
  rw [if_pos h, natToBitsBE_reverse]

/-- Round trip at the window level, decode-then-encode direction: the
window of a field of width `len` is reproduced bit for bit. -/
theorem to_bitstream_decodeVal (w : Bits) :
    to_bitstream w.length (decodeVal w) = .ok w := by
  rw [decodeVal_eq_bitsLSB, to_bitstream_eq _ _ (bitsLSB_lt w),
    range_map_testBit_of_bitsLSB]

/-- Round trip at the window level, encode-then-decode direction. -/
theorem decodeVal_to_bitstream (len v : ℕ) (h : v < 2 ^ len) (w : Bits)
    (hw : to_bitstream len v = .ok w) : decodeVal w = v := by
  rw [to_bitstream_eq _ _ h] at hw
  cases hw
  rw [decodeVal_eq_bitsLSB, bitsLSB_range_map _ _ h]

end BitLemmas

section FracLemmas

theorem Frac.den_add (x y : Frac) : (x + y).den = x.den * y.den := rfl

theorem Frac.den_sub (x y : Frac) : (x - y).den = x.den * y.den := rfl

theorem Frac.den_mul (x y : Frac) : (x * y).den = x.den * y.den := rfl

theorem Frac.den_div (x y : Frac) : (x / y).den = x.den * y.num := rfl

theorem Frac.pow_zero_def (x : Frac) : x ^ (0 : ℕ) = (⟨1, 1⟩ : Frac) := rfl

theorem Frac.pow_succ_def (x : Frac) (n : ℕ) : x ^ (n + 1) = x ^ n * x := rfl

theorem Frac.den_pow (x : Frac) (n : ℕ) : (x ^ n).den = x.den ^ n := by
  induction n with
  | zero => rfl
  | succ k ih => rw [Frac.pow_succ_def, Frac.den_mul, ih, pow_succ]

theorem Frac.toRat_mul (x y : Frac) : (x * y).toRat = x.toRat * y.toRat := by
  show ((x.num * y.num : ℤ) : ℚ) / ((x.den * y.den : ℤ) : ℚ) = _
  unfold Frac.toRat
  push_cast
  rw [div_mul_div_comm]

theorem Frac.toRat_div (x y : Frac) : (x / y).toRat = x.toRat / y.toRat := by
  show ((x.num * y.den : ℤ) : ℚ) / ((x.den * y.num : ℤ) : ℚ) = _
  unfold Frac.toRat
  push_cast
  rw [div_div_eq_mul_div, div_mul_eq_mul_div, div_div]

theorem Frac.toRat_add (x y : Frac) (hx : x.den ≠ 0) (hy : y.den ≠ 0) :
    (x + y).toRat = x.toRat + y.toRat := by
  have hx' : (x.den : ℚ) ≠ 0 := Int.cast_ne_zero.mpr hx
  have hy' : (y.den : ℚ) ≠ 0 := Int.cast_ne_zero.mpr hy
  show ((x.num * y.den + y.num * x.den : ℤ) : ℚ) / ((x.den * y.den : ℤ) : ℚ) = _
  unfold Frac.toRat
  push_cast
  field_simp

theorem Frac.toRat_sub (x y : Frac) (hx : x.den ≠ 0) (hy : y.den ≠ 0) :
    (x - y).toRat = x.toRat - y.toRat := by
  have hx' : (x.den : ℚ) ≠ 0 := Int.cast_ne_zero.mpr hx
  have hy' : (y.den : ℚ) ≠ 0 := Int.cast_ne_zero.mpr hy
  show ((x.num * y.den - y.num * x.den : ℤ) : ℚ) / ((x.den * y.den : ℤ) : ℚ) = _
  unfold Frac.toRat
  push_cast
  field_simp
  ring

theorem Frac.toRat_one : (1 : Frac).toRat = 1 := by
  show ((1 : ℤ) : ℚ) / ((1 : ℤ) : ℚ) = 1
  norm_num

theorem Frac.toRat_pow (x : Frac) (n : ℕ) : (x ^ n).toRat = x.toRat ^ n := by
  induction n with
  | zero =>
      rw [pow_zero]
      exact Frac.toRat_one
  | succ k ih =>
      rw [Frac.pow_succ_def, Frac.toRat_mul, ih, ← pow_succ]

theorem Frac.toRat_natCast (n : ℕ) : ((n : Frac)).toRat = n := by
  show ((n : ℤ) : ℚ) / ((1 : ℤ) : ℚ) = n
  norm_num

theorem Frac.toRat_ofNat (n : ℕ) [n.AtLeastTwo] :
    (OfNat.ofNat n : Frac).toRat = OfNat.ofNat n := by
  show ((n : ℤ) : ℚ) / ((1 : ℤ) : ℚ) = _
  rw [Int.cast_one, div_one]
  norm_cast

theorem Frac.den_one : (1 : Frac).den = 1 := rfl

theorem Frac.eqv_iff (x y : Frac) (hx : x.den ≠ 0) (hy : y.den ≠ 0) :
    x.eqv y = true ↔ x.toRat = y.toRat := by
  have hx' : (x.den : ℚ) ≠ 0 := Int.cast_ne_zero.mpr hx
  have hy' : (y.den : ℚ) ≠ 0 := Int.cast_ne_zero.mpr hy
  unfold Frac.eqv Frac.toRat
  rw [beq_iff_eq, div_eq_div_iff hx' hy']
  constructor
  · intro h
    exact_mod_cast h
  · intro h
    exact_mod_cast h

theorem Frac.num_ne_zero_of_toRat_pos (x : Frac) (h : 0 < x.toRat ∨ x.toRat ≠ 0) :
    x.num ≠ 0 := by
  intro h0
  have : x.toRat = 0 := by simp [Frac.toRat, h0]
  rcases h with h | h
  · rw [this] at h
    exact lt_irrefl 0 h
  · exact h this

theorem fracToUInt_of_toRat_nat (x : Frac) (r : ℕ) (hx : x.den ≠ 0)
    (h : x.toRat = r) : fracToUInt x = .ok r := by
  have hx' : (x.den : ℚ) ≠ 0 := Int.cast_ne_zero.mpr hx
  have hnum : x.num = r * x.den := by
    unfold Frac.toRat at h
    rw [div_eq_iff hx'] at h
    exact_mod_cast h
  have hdvd : x.den ∣ x.num := ⟨r, by rw [hnum]; ring⟩
  have hdiv : x.num / x.den = r := by
    rw [hnum, Int.mul_ediv_cancel _ hx]
  unfold fracToUInt
  rw [if_pos ⟨hdvd, by rw [hdiv]; exact Int.natCast_nonneg r⟩, hdiv]
  simp

theorem expLog_eq (b q : Frac) (hb : b.den ≠ 0) (hq : q.den ≠ 0)
    (hb1 : 1 < b.toRat) :
    ∀ (fuel r : ℕ) (acc : Frac), acc.den ≠ 0 → 0 < acc.toRat →
      q.toRat = acc.toRat * b.toRat ^ r → r ≤ fuel →
      expLog b q fuel acc = some r := by
  intro fuel
  induction fuel with
  | zero =>
      intro r acc hacc haccpos hval hr
      interval_cases r
      unfold expLog
      rw [if_pos]
      rw [Frac.eqv_iff _ _ hacc hq, hval, pow_zero, mul_one]
  | succ n ih =>
      intro r acc hacc haccpos hval hr
      cases r with
      | zero =>
          unfold expLog
          rw [if_pos]
          rw [Frac.eqv_iff _ _ hacc hq, hval, pow_zero, mul_one]
      | succ k =>
          have hne : acc.eqv q = false := by
            rw [← Bool.not_eq_true, Frac.eqv_iff _ _ hacc hq]
            intro heq
            have hgt : 1 < b.toRat ^ (k + 1) :=
              one_lt_pow₀ hb1 (Nat.succ_ne_zero k)
            have : acc.toRat < q.toRat := by
              rw [hval]
              nth_rewrite 1 [← mul_one acc.toRat]
              exact mul_lt_mul_of_pos_left hgt haccpos
            rw [heq] at this
            exact lt_irrefl _ this
          unfold expLog
          rw [hne]
          simp only [Bool.false_eq_true, if_false]
          have hrec : expLog b q n (acc * b) = some k := by
            apply ih k (acc * b)
            · rw [Frac.den_mul]
              exact mul_ne_zero hacc hb
            · rw [Frac.toRat_mul]
              exact mul_pos haccpos (lt_trans one_pos hb1)
            · rw [Frac.toRat_mul, hval, pow_succ]
              ring
            · omega
          rw [hrec]
          rfl

end FracLemmas

section StringLemmas

theorem binDigitsRev_spec :
    ∀ fuel n : ℕ, n ≤ fuel →
      bitsLSB (binDigitsRev fuel n) = n ∧
      ∀ k, n < 2 ^ k → (binDigitsRev fuel n).length ≤ k := by
  intro fuel
  induction fuel with
  | zero =>
      intro n hn
      interval_cases n
      exact ⟨rfl, fun k _ => by simp [binDigitsRev]⟩
  | succ m ih =>
      intro n hn
      by_cases h0 : n = 0
      · subst h0
        refine ⟨by simp [binDigitsRev, bitsLSB], fun k _ => by simp [binDigitsRev]⟩
      · have hrec := ih (n / 2) (by omega)
        have hbit : (decide (n % 2 = 1)).toNat = n % 2 := by
          rcases Nat.mod_two_eq_zero_or_one n with h | h <;> simp [h]
        constructor
        · show bitsLSB (binDigitsRev (m + 1) n) = n
          unfold binDigitsRev
          rw [if_neg h0]
          simp only [bitsLSB]
          rw [hrec.1, hbit]
          omega
        · intro k hk
          have hk1 : 0 < k := by
            by_contra hc
            have : k = 0 := by omega
            subst this
            simp at hk
            omega
          have hhalf : n / 2 < 2 ^ (k - 1) := by
            have h2 : 2 ^ k = 2 * 2 ^ (k - 1) := by
              conv_lhs => rw [show k = (k - 1) + 1 by omega]
              ring
            omega
          have := hrec.2 (k - 1) hhalf
          show (binDigitsRev (m + 1) n).length ≤ k
          unfold binDigitsRev
          rw [if_neg h0]
          simp only [List.length_cons]
          omega

/-- General form of the encode-side character emission: zero-filling the
Python binary digits to width `k` and reversing yields the `k` bits of the
character code, least significant first. -/
theorem zfill_pyBin_reverse (k c : ℕ) (hc : c < 2 ^ k) (hk : 0 < k) :
    (zfill k (pyBin c)).reverse = (List.range k).map (fun i => c.testBit i) := by
  by_cases h0 : c = 0
  · subst h0
    unfold pyBin zfill
    rw [if_pos rfl]
    simp only [List.length_cons, List.length_nil]
    rw [List.reverse_append]
    simp only [List.reverse_replicate, List.reverse_cons, List.reverse_nil,
      List.nil_append]
    have hmap : (List.range k).map (fun i => Nat.testBit 0 i) =
        List.replicate k false := by
      rw [List.eq_replicate_iff]
      refine ⟨by simp, ?_⟩
      intro b hb
      rcases List.mem_map.mp hb with ⟨i, _, hi⟩
      rw [← hi, Nat.zero_testBit]
    rw [hmap]
    rw [show k = (k - 1) + 1 by omega, List.replicate_succ]
    simp
  · unfold pyBin
    rw [if_neg h0]
    have hspec := binDigitsRev_spec c c (le_refl c)
    set q := binDigitsRev c c with hq
    have hlen : q.length ≤ k := hspec.2 k hc
    unfold zfill
    rw [List.length_reverse, List.reverse_append, List.reverse_replicate,
      List.reverse_reverse]
    have hw : bitsLSB (q ++ List.replicate (k - q.length) false) = c := by
      rw [bitsLSB_append, bitsLSB_replicate_false, Nat.mul_zero, Nat.add_zero,
        hspec.1]
    have hwlen : (q ++ List.replicate (k - q.length) false).length = k := by
      simp only [List.length_append, List.length_replicate]
      omega
    have := range_map_testBit_of_bitsLSB (q ++ List.replicate (k - q.length) false)
    rw [hwlen, hw] at this
    exact this.symm

theorem asciiCharBits_eq (c : ℕ) (hc : c < 2 ^ 7) :
    asciiCharBits c = (List.range 7).map (fun i => c.testBit i) :=
  zfill_pyBin_reverse 7 c hc (by norm_num)

theorem chr5CharBits_eq (c : ℕ) :
    chr5CharBits c = (List.range 5).map (fun i => c.testBit i) := by
  by_cases hc : c < 2 ^ 5
  · unfold chr5CharBits takeLast
    have h5 : (zfill 5 (pyBin c)).length = 5 := by
      unfold zfill
      simp only [List.length_append, List.length_replicate]
      by_cases h0 : c = 0
      · subst h0
        unfold pyBin
        rw [if_pos rfl]
        simp
      · unfold pyBin
        rw [if_neg h0]
        have := (binDigitsRev_spec c c (le_refl c)).2 5 hc
        rw [List.length_reverse]
        omega
    rw [h5]
    simp only [Nat.sub_self, List.drop_zero]
    exact zfill_pyBin_reverse 5 c hc (by norm_num)
  · have h0 : c ≠ 0 := by intro h; subst h; simp at hc
    unfold chr5CharBits takeLast zfill pyBin
    rw [if_neg h0]
    have hspec := binDigitsRev_spec c c (le_refl c)
    set q := binDigitsRev c c with hq
    have hqlen : 5 ≤ q.length := by
      have := bitsLSB_lt q
      rw [hspec.1] at this
      by_contra hcon
      have hlt : q.length ≤ 4 := by omega
      have : c < 2 ^ 4 * 2 := by
        calc c < 2 ^ q.length := this
        _ ≤ 2 ^ 4 := Nat.pow_le_pow_right (by norm_num) hlt
        _ ≤ 2 ^ 4 * 2 := by omega
      omega
    have hrl : q.reverse.length = q.length := List.length_reverse q
    rw [hrl, show 5 - q.length = 0 by omega]
    simp only [List.replicate_zero, List.nil_append]
    have hdrop : (q.reverse.drop (q.length - 5)).reverse = q.take 5 := by
      rw [List.reverse_drop, List.reverse_reverse, hrl]
      congr 1
      omega
    rw [List.length_reverse, hdrop]
    apply List.ext_getElem
    · simp only [List.length_take, List.length_map, List.length_range]
      omega
    · intro i h1 h2
      have hi5 : i < 5 := by
        simp only [List.length_take] at h1
        omega
      have hiq : i < q.length := by omega
      rw [List.getElem_take]
      simp only [List.getElem_map, List.getElem_range]
      have := testBit_bitsLSB q i
      rw [hspec.1, List.getD_eq_getElem _ _ hiq] at this
      exact this.symm

theorem chr5CharBits_decode (g : Bits) (hg : g.length = 5) :
    chr5CharBits (96 + decodeVal g) = g := by
  rw [decodeVal_eq_bitsLSB, chr5CharBits_eq]
  have hv : bitsLSB g < 32 := by
    have := bitsLSB_lt g
    rw [hg] at this
    exact this
  have hstep : (List.range 5).map (fun i => (96 + bitsLSB g).testBit i) =
      (List.range 5).map (fun i => (bitsLSB g).testBit i) := by
    apply List.map_congr_left
    intro i hi
    have hi5 : i < 5 := List.mem_range.mp hi
    have hmod : (96 + bitsLSB g) % 2 ^ 5 = bitsLSB g := by
      have : (96 + bitsLSB g) % 32 = bitsLSB g := by omega
      simpa using this
    calc (96 + bitsLSB g).testBit i
        = ((96 + bitsLSB g) % 2 ^ 5).testBit i := by
          rw [Nat.testBit_mod_two_pow]
          simp [hi5]
      _ = (bitsLSB g).testBit i := by rw [hmod]
  rw [hstep]
  have := range_map_testBit_of_bitsLSB g
  rw [hg] at this
  exact this

theorem asciiCharBits_decode (g : Bits) (hg : g.length = 7) :
    asciiCharBits (decodeVal g) = g := by
  rw [decodeVal_eq_bitsLSB]
  have hv : bitsLSB g < 2 ^ 7 := by
    have := bitsLSB_lt g
    rw [hg] at this
    exact this
  rw [asciiCharBits_eq _ hv]
  have := range_map_testBit_of_bitsLSB g
  rw [hg] at this
  exact this

theorem bitGroups_nil (n : ℕ) : bitGroups n [] = [] := by
  simp [bitGroups]

theorem bitGroups_small (n : ℕ) (bs : Bits) (h : bs.length < n) :
    bitGroups n bs = [] := by
  unfold bitGroups
  rw [Nat.div_eq_of_lt h]
  simp

theorem bitGroups_cons (n : ℕ) (hn : 0 < n) (b rest : Bits) (hb : b.length = n) :
    bitGroups n (b ++ rest) = b :: bitGroups n rest := by
  unfold bitGroups
  have hlen : (b ++ rest).length = rest.length + n := by
    simp [hb]
    omega
  rw [hlen, Nat.add_div_right _ hn, List.range_succ_eq_map]
  simp only [List.map_cons, List.map_map]
  refine List.cons_eq_cons.mpr ⟨?_, ?_⟩
  · rw [Nat.mul_zero, List.drop_zero]
    exact List.take_left' hb
  · apply List.map_congr_left
    intro i _
    simp only [Function.comp_apply]
    congr 1
    have heq : n * (i + 1) = b.length + n * i := by
      rw [hb]
      ring
    rw [heq, ← List.drop_drop, List.drop_left]

theorem chr5_join : ∀ (N : ℕ) (w : Bits), w.length ≤ N → w.length % 5 = 0 →
    ((bitGroups 5 w).map (fun g => 96 + decodeVal g)).flatMap chr5CharBits = w := by
  intro N
  induction N with
  | zero =>
      intro w hw _
      have : w = [] := List.eq_nil_of_length_eq_zero (by omega)
      subst this
      simp [bitGroups_nil]
  | succ M ih =>
      intro w hw h5
      by_cases h0 : w.length = 0
      · have : w = [] := List.eq_nil_of_length_eq_zero h0
        subst this
        simp [bitGroups_nil]
      · have h5le : 5 ≤ w.length := by omega
        have htake : (w.take 5).length = 5 := by
          rw [List.length_take]
          omega
        have hsplit : w = w.take 5 ++ w.drop 5 := (List.take_append_drop 5 w).symm
        conv_lhs => rw [hsplit]
        rw [bitGroups_cons 5 (by norm_num) _ _ htake]
        simp only [List.map_cons, List.flatMap_cons]
        rw [chr5CharBits_decode _ htake]
        have hdl : (w.drop 5).length ≤ M := by
          rw [List.length_drop]
          omega
        have hd5 : (w.drop 5).length % 5 = 0 := by
          rw [List.length_drop]
          omega
        rw [ih (w.drop 5) hdl hd5]
        exact (List.take_append_drop 5 w)

theorem ascii_join : ∀ (N : ℕ) (w : Bits), w.length ≤ N → w.length % 7 = 0 →
    (asciiFromBits w).flatMap asciiCharBits = w := by
  intro N
  induction N with
  | zero =>
      intro w hw _
      have : w = [] := List.eq_nil_of_length_eq_zero (by omega)
      subst this
      simp [asciiFromBits, bitGroups_nil]
  | succ M ih =>
      intro w hw h7
      by_cases h0 : w.length = 0
      · have : w = [] := List.eq_nil_of_length_eq_zero h0
        subst this
        simp [asciiFromBits, bitGroups_nil]
      · have h7le : 7 ≤ w.length := by omega
        have htake : (w.take 7).length = 7 := by
          rw [List.length_take]
          omega
        have hsplit : w = w.take 7 ++ w.drop 7 := (List.take_append_drop 7 w).symm
        unfold asciiFromBits
        conv_lhs => rw [hsplit]
        rw [bitGroups_cons 7 (by norm_num) _ _ htake]
        simp only [List.map_cons, List.flatMap_cons]
        rw [asciiCharBits_decode _ htake]
        have hdl : (w.drop 7).length ≤ M := by
          rw [List.length_drop]
          omega
        have hd7 : (w.drop 7).length % 7 = 0 := by
          rw [List.length_drop]
          omega
        have := ih (w.drop 7) hdl hd7
        unfold asciiFromBits at this
        rw [this]
        exact (List.take_append_drop 7 w)

/-- Dropping the incomplete trailing group does not change the complete
groups. -/
theorem bitGroups_take (n : ℕ) (hn : 0 < n) :
    ∀ (N : ℕ) (bs : Bits), bs.length ≤ N →
      bitGroups n (bs.take (n * (bs.length / n))) = bitGroups n bs := by
  intro N
  induction N with
  | zero =>
      intro bs hb
      have : bs = [] := List.eq_nil_of_length_eq_zero (by omega)
      subst this
      simp [bitGroups_nil]
  | succ M ih =>
      intro bs hb
      by_cases hsmall : bs.length < n
      · rw [Nat.div_eq_of_lt hsmall, Nat.mul_zero, List.take_zero,
          bitGroups_nil, bitGroups_small n bs hsmall]
      · have hnle : n ≤ bs.length := by omega
        have htake : (bs.take n).length = n := by
          rw [List.length_take]
          omega
        have hsplit : bs = bs.take n ++ bs.drop n := (List.take_append_drop n bs).symm
        have hdiv : bs.length / n = (bs.drop n).length / n + 1 := by
          rw [List.length_drop]
          rw [show bs.length = (bs.length - n) + n by omega, Nat.add_div_right _ hn,
            Nat.add_sub_cancel]
        have hmul : n * (bs.length / n) = n + n * ((bs.drop n).length / n) := by
          rw [hdiv]
          ring
        have hsplit2 : bs.take (n * (bs.length / n)) =
            bs.take n ++ (bs.drop n).take (n * ((bs.drop n).length / n)) := by
          rw [hmul, List.take_add]
        rw [hsplit2, bitGroups_cons n hn _ _ htake]
        conv_rhs => rw [hsplit]
        rw [bitGroups_cons n hn _ _ htake]
        rw [ih (bs.drop n) (by rw [List.length_drop]; omega)]

end StringLemmas

section ElementLemmas

theorem Frac.den_natCast (v : ℕ) : ((v : Frac)).den = 1 := rfl

theorem Frac.den_two : (2 : Frac).den = 1 := rfl

theorem lenAttr_of_goodWin (sp : FSpec) (w : Bits) (hg : GoodWin sp w) :
    sp.lenAttr = (w.length : ℤ) := by
  cases sp with
  | unInt n => exact_mod_cast congrArg Int.ofNat hg
  | chr5 n => exact_mod_cast congrArg Int.ofNat hg.1
  | ascii n => exact hg.1
  | date n => exact_mod_cast congrArg Int.ofNat hg
  | conRes n start step => exact_mod_cast congrArg Int.ofNat hg
  | conRelRes n start step => exact_mod_cast congrArg Int.ofNat hg
  | const s =>
      have : w = [] := hg
      subst this
      rfl

theorem fromBits_eq_total (sp : FSpec) (w : Bits) (hg : GoodWin sp w) :
    sp.fromBits w = .ok (fromBitsTotal sp w) := by
  cases sp with
  | chr5 n =>
      have h5 : w.length % 5 = 0 := hg.2
      simp only [FSpec.fromBits, fromBitsTotal, chr5FromBits, if_pos h5]
      rfl
  | unInt n => rfl
  | ascii n => rfl
  | date n => rfl
  | conRes n start step => rfl
  | conRelRes n start step => rfl
  | const s => rfl

theorem fromBitsTotal_chr5 (n : ℕ) (w : Bits) (h5 : w.length % 5 = 0) :
    fromBitsTotal (.chr5 n) w =
      .chr5 n ((bitGroups 5 w).map (fun g => 96 + decodeVal g)) := by
  simp only [fromBitsTotal, FSpec.fromBits, chr5FromBits, if_pos h5]
  rfl

/-- Decode-then-encode round trip of a single well-shaped field: encoding
the decoded element reproduces its window bit for bit. -/
theorem to_bits_fromBitsTotal (sp : FSpec) (w : Bits) (hg : GoodWin sp w)
    (hr : RoundSpec sp) : (fromBitsTotal sp w).to_bits = .ok w := by
  cases sp with
  | unInt n =>
      show to_bitstream n (decodeVal w) = .ok w
      have hn : n = w.length := hg
      rw [hn]
      exact to_bitstream_decodeVal w
  | date n =>
      show to_bitstream n (decodeVal w) = .ok w
      have hn : n = w.length := hg
      rw [hn]
      exact to_bitstream_decodeVal w
  | chr5 n =>
      obtain ⟨hn, h5⟩ := hg
      rw [fromBitsTotal_chr5 n w h5]
      show Except.ok (((bitGroups 5 w).map (fun g => 96 + decodeVal g)).flatMap
        chr5CharBits) = .ok w
      exact congrArg Except.ok (chr5_join w.length w (le_refl _) h5)
  | ascii n =>
      obtain ⟨hn, h7⟩ := hg
      show Except.ok ((asciiFromBits w).flatMap asciiCharBits) = .ok w
      exact congrArg Except.ok (ascii_join w.length w (le_refl _) h7)
  | conRes n start step =>
      obtain ⟨hsd, htd, hts⟩ := hr
      have hn : n = w.length := hg
      set v := decodeVal w with hv
      have hts' : step.num ≠ 0 := Frac.num_ne_zero_of_toRat_pos step (Or.inr hts)
      have hmd : ((v : Frac) * step).den ≠ 0 := by
        rw [Frac.den_mul, Frac.den_natCast, one_mul]
        exact htd
      have had : (start + (v : Frac) * step).den ≠ 0 := by
        rw [Frac.den_add]
        exact mul_ne_zero hsd hmd
      have hqden : ((start + (v : Frac) * step - start) / step).den ≠ 0 := by
        rw [Frac.den_div, Frac.den_sub]
        exact mul_ne_zero (mul_ne_zero had hsd) hts'
      have hqrat : ((start + (v : Frac) * step - start) / step).toRat = v := by
        rw [Frac.toRat_div, Frac.toRat_sub _ _ had hsd,
          Frac.toRat_add _ _ hsd hmd, Frac.toRat_mul, Frac.toRat_natCast]
        field_simp
      have hq : fracToUInt ((start + (v : Frac) * step - start) / step) = .ok v :=
        fracToUInt_of_toRat_nat _ v hqden hqrat
      have helem : fromBitsTotal (.conRes n start step) w =
          .conRes n start step (start + (v : Frac) * step) := rfl
      rw [helem]
      show (do
        let raw ← fracToUInt ((start + (v : Frac) * step - start) / step)
        to_bitstream n raw) = .ok w
      rw [hq]
      show to_bitstream n v = .ok w
      rw [hn]
      exact to_bitstream_decodeVal w
  | conRelRes n start step =>
      obtain ⟨hsd, htd, hsp, htp⟩ := hr
      have hn : n = w.length := hg
      set v := decodeVal w with hv
      have hbden : (1 + 2 * step : Frac).den ≠ 0 := by
        show (1 : ℤ) * ((2 : Frac).den * step.den) ≠ 0
        rw [Frac.den_two, one_mul, one_mul]
        exact htd
      have hbrat : (1 + 2 * step : Frac).toRat = 1 + 2 * step.toRat := by
        rw [Frac.toRat_add _ _ (by rw [Frac.den_one]; exact one_ne_zero)
          (by rw [Frac.den_mul, Frac.den_two, one_mul]; exact htd),
          Frac.toRat_one, Frac.toRat_mul, Frac.toRat_ofNat]
      have hb1 : 1 < (1 + 2 * step : Frac).toRat := by
        rw [hbrat]
        linarith
      have hsnum : start.num ≠ 0 := Frac.num_ne_zero_of_toRat_pos start (Or.inl hsp)
      have hvd : (start * (1 + 2 * step : Frac) ^ v).den ≠ 0 := by
        rw [Frac.den_mul, Frac.den_pow]
        exact mul_ne_zero hsd (pow_ne_zero _ hbden)
      have hqden : ((start * (1 + 2 * step : Frac) ^ v) / start).den ≠ 0 := by
        rw [Frac.den_div]
        exact mul_ne_zero hvd hsnum
      have hqrat : ((start * (1 + 2 * step : Frac) ^ v) / start).toRat =
          (1 : Frac).toRat * (1 + 2 * step : Frac).toRat ^ v := by
        rw [Frac.toRat_div, Frac.toRat_mul, Frac.toRat_pow, Frac.toRat_one,
          one_mul, mul_comm, mul_div_assoc, div_self (ne_of_gt hsp), mul_one]
      have hexp : expLog (1 + 2 * step) ((start * (1 + 2 * step : Frac) ^ v) / start)
          (2 ^ n) 1 = some v := by
        apply expLog_eq _ _ hbden hqden hb1
        · rw [Frac.den_one]
          exact one_ne_zero
        · rw [Frac.toRat_one]
          exact one_pos
        · exact hqrat
        · rw [hn]
          exact le_of_lt (by
            have := bitsLSB_lt w
            rw [← decodeVal_eq_bitsLSB] at this
            exact this)
      have helem : fromBitsTotal (.conRelRes n start step) w =
          .conRelRes n start step (start * (1 + 2 * step : Frac) ^ v) := rfl
      rw [helem]
      show (match expLog (1 + 2 * step)
          ((start * (1 + 2 * step : Frac) ^ v) / start) (2 ^ n) 1 with
        | some m => to_bitstream n m
        | none => Except.error TedsError.creationError) = .ok w
      rw [hexp]
      show to_bitstream n v = .ok w
      rw [hn]
      exact to_bitstream_decodeVal w
  | const s =>
      have : w = [] := hg
      subst this
      rfl

end ElementLemmas

section EngineLemmas

theorem bindOk {ε α β : Type} (x : α) (f : α → Except ε β) :
    (Except.ok x : Except ε α).bind f = f x := rfl

theorem bindErr {ε α β : Type} (e : ε) (f : α → Except ε β) :
    (Except.error e : Except ε α).bind f = .error e := rfl

theorem process_append (l1 l2 : List (String × FSpec)) (doc : Doc) (c : Cursor) :
    process (l1 ++ l2) doc c =
      (process l1 doc c).bind (fun dc => process l2 dc.1 dc.2) := by
  induction l1 generalizing doc c with
  | nil => rfl
  | cons hd tl ih =>
      obtain ⟨name, sp⟩ := hd
      simp only [List.cons_append, process]
      cases hread : (if sp.lenAttr = -1 then Except.ok (csReadRemainder c)
          else csRead sp.lenAttr.toNat c) with
      | error err => simp only [bindErr]
      | ok wc =>
          simp only [bindOk]
          cases hfb : sp.fromBits wc.1 with
          | error err => simp only [bindErr]
          | ok el =>
              simp only [bindOk]
              exact ih _ _

/-- Running `process` on fixed-width specs over a buffer laid out as
`pre ++ windows ++ rest`, starting at the end of `pre`, decodes exactly
the windows and advances past them. -/
theorem process_windows (specs : List (String × FSpec)) (ws : List Bits)
    (h : List.Forall₂ (fun p w => GoodWin p.2 w) specs ws) :
    ∀ (doc : Doc) (pre rest : Bits),
      process specs doc ⟨pre ++ (ws.flatten ++ rest), pre.length⟩ =
        .ok (doc ++ docOf specs ws,
          ⟨pre ++ (ws.flatten ++ rest), pre.length + ws.flatten.length⟩) := by
  induction h with
  | nil =>
      intro doc pre rest
      simp [process, docOf]
  | cons h1 h2 ih =>
      rename_i p w specs' ws'
      intro doc pre rest
      obtain ⟨name, sp⟩ := p
      have hg : GoodWin sp w := h1
      have hlen : sp.lenAttr = (w.length : ℤ) := lenAttr_of_goodWin _ _ hg
      have hne : ¬(sp.lenAttr = -1) := by
        rw [hlen]
        omega
      have hbits : pre ++ ((w :: ws').flatten ++ rest) =
          (pre ++ w) ++ (ws'.flatten ++ rest) := by
        simp [List.flatten_cons, List.append_assoc]
      simp only [process, if_neg hne]
      have hread : csRead sp.lenAttr.toNat
          ⟨pre ++ ((w :: ws').flatten ++ rest), pre.length⟩ =
          .ok (w, ⟨pre ++ ((w :: ws').flatten ++ rest), pre.length + w.length⟩) := by
        have htn : sp.lenAttr.toNat = w.length := by
          rw [hlen]
          exact Int.toNat_natCast w.length
        unfold csRead
        rw [htn]
        have hok : pre.length + w.length ≤
            (pre ++ ((w :: ws').flatten ++ rest)).length := by
          simp only [List.length_append, List.flatten_cons]
          omega
        rw [if_pos hok]
        have hdrop : (pre ++ ((w :: ws').flatten ++ rest)).drop pre.length =
            w ++ (ws'.flatten ++ rest) := by
          rw [show pre ++ ((w :: ws').flatten ++ rest) =
            pre ++ (w ++ (ws'.flatten ++ rest)) by
              simp [List.flatten_cons, List.append_assoc]]
          exact List.drop_left pre _
        rw [hdrop, List.take_left]
      rw [hread]
      simp only [bindOk]
      rw [fromBits_eq_total sp w hg]
      simp only [bindOk]
      have hcur : (⟨pre ++ ((w :: ws').flatten ++ rest), pre.length + w.length⟩ :
          Cursor) = ⟨(pre ++ w) ++ (ws'.flatten ++ rest), (pre ++ w).length⟩ := by
        rw [hbits]
        simp
      rw [hcur, ih]
      rw [← hbits]
      have hdoc : (doc ++ [(name, fromBitsTotal sp w)]) ++ docOf specs' ws' =
          doc ++ docOf ((name, sp) :: specs') (w :: ws') := by
        simp [docOf]
      rw [hdoc]
      have hpos : (pre ++ w).length + ws'.flatten.length =
          pre.length + ((w :: ws').flatten).length := by
        simp [List.flatten_cons]
        omega
      rw [hpos]

theorem encodeFields_append (d1 d2 : Doc) :
    encodeFields (d1 ++ d2) =
      (encodeFields d1).bind (fun b1 =>
        (encodeFields d2).bind (fun b2 => .ok (b1 ++ b2))) := by
  induction d1 with
  | nil =>
      show encodeFields d2 = (encodeFields d2).bind (fun b2 => .ok ([] ++ b2))
      cases h : encodeFields d2 with
      | error e => rfl
      | ok b => simp [bindOk]
  | cons hd tl ih =>
      obtain ⟨name, e⟩ := hd
      simp only [List.cons_append, encodeFields]
      cases hb : (match e with
        | TElem.const _ => Except.ok ([] : Bits)
        | e => e.to_bits) with
      | error err => simp only [bindErr]
      | ok b =>
          simp only [bindOk, List.append_eq]
          rw [ih]
          cases h1 : encodeFields tl with
          | error err => simp only [bindErr]
          | ok b1 =>
              simp only [bindOk]
              cases h2 : encodeFields d2 with
              | error err => simp only [bindErr]
              | ok b2 => simp [bindOk, List.append_assoc]

/-- The skip-constants emission of `write_teds_to_file` agrees with
`to_bits` on every element (`ConstantTedsElement.to_bits` contributes
nothing). -/
theorem encodeFields_match_to_bits (e : TElem) :
    (match e with
      | TElem.const _ => Except.ok ([] : Bits)
      | e => e.to_bits) = e.to_bits := by
  cases e <;> rfl

/-- Encoding the document fragment decoded from well-shaped windows
reproduces the windows. -/
theorem encodeFields_docOf (specs : List (String × FSpec)) (ws : List Bits)
    (h : List.Forall₂ (fun p w => GoodWin p.2 w) specs ws)
    (hr : ∀ p ∈ specs, RoundSpec p.2) :
    encodeFields (docOf specs ws) = .ok ws.flatten := by
  induction h with
  | nil => rfl
  | cons h1 h2 ih =>
      rename_i p w specs' ws'
      obtain ⟨name, sp⟩ := p
      have hrs : RoundSpec sp := hr _ (List.mem_cons_self _ _)
      have hrest : ∀ q ∈ specs', RoundSpec q.2 := fun q hq =>
        hr q (List.mem_cons_of_mem _ hq)
      show encodeFields ((name, fromBitsTotal sp w) :: docOf specs' ws') = _
      simp only [encodeFields, encodeFields_match_to_bits]
      rw [to_bits_fromBitsTotal sp w h1 hrs]
      simp only [bindOk]
      rw [ih hrest]
      simp only [bindOk]
      rw [List.flatten_cons]

end EngineLemmas

section PipelineLemmas

theorem preambleBits_length : preambleBits.length = 40 := by decide

theorem trailerSpecs_split :
    trailerSpecs = trailerFixedSpecs ++ [("user_data", FSpec.ascii (-1))] := rfl

/-- With a matching preamble, decode strips the first 40 bits and
continues from bit 40. -/
theorem decodeTeds_true_ok (s : Bits) (h : s.take 40 = preambleBits) :
    decodeTeds s true = decodeRest ⟨s, 40⟩ := by
  have hlen : 40 ≤ s.length := by
    have := congrArg List.length h
    rw [List.length_take, preambleBits_length] at this
    omega
  unfold decodeTeds
  have hread : csRead 40 ⟨s, 0⟩ = .ok (s.take 40, ⟨s, 40⟩) := by
    unfold csRead
    rw [if_pos (by simpa using hlen)]
    simp
  rw [hread]
  simp [h]

/-- With a mismatching preamble (and at least 40 bits), decode fails with
the preamble error. -/
theorem decodeTeds_true_bad (s : Bits) (hlen : 40 ≤ s.length)
    (h : s.take 40 ≠ preambleBits) :
    decodeTeds s true = .error .invalidPreamble := by
  unfold decodeTeds
  have hread : csRead 40 ⟨s, 0⟩ = .ok (s.take 40, ⟨s, 40⟩) := by
    unfold csRead
    rw [if_pos (by simpa using hlen)]
    simp
  rw [hread]
  simp [h]

/-- Without a preamble the header is read from bit 0. -/
theorem decodeTeds_false (s : Bits) : decodeTeds s false = decodeRest ⟨s, 0⟩ := rfl

/-- The remainder field read: processing `user_data` consumes everything
from the current position to the end of the buffer. -/
theorem process_user_data (doc : Doc) (pre u : Bits) :
    process [("user_data", FSpec.ascii (-1))] doc ⟨pre ++ u, pre.length⟩ =
      .ok (doc ++ [("user_data", TElem.ascii (-1) (asciiFromBits u))],
        ⟨pre ++ u, (pre ++ u).length⟩) := by
  simp only [process]
  rw [if_pos (show (FSpec.ascii (-1)).lenAttr = -1 from rfl)]
  simp only [bindOk]
  have hrem : csReadRemainder ⟨pre ++ u, pre.length⟩ =
      (u, ⟨pre ++ u, (pre ++ u).length⟩) := by
    unfold csReadRemainder
    rw [List.drop_left]
  rw [hrem]
  show (FSpec.fromBits (FSpec.ascii (-1)) u).bind _ = _
  simp only [FSpec.fromBits, bindOk]

theorem cursor_shift (pre a rest : Bits) :
    (⟨pre ++ (a ++ rest), pre.length + a.length⟩ : Cursor) =
      ⟨(pre ++ a) ++ rest, (pre ++ a).length⟩ := by
  simp [List.append_assoc]

theorem decodeRest_accel_basic
    (pre w1 w2 w3 w4 w5 w6 wT wS wH wD wW wSg wRR wRT wDt wIn wPe wLo wEn wEx
      u : Bits)
    (h1 : w1.length = 14) (h2 : w2.length = 15) (h3 : w3.length = 5)
    (h4 : w4.length = 6) (h5 : w5.length = 24) (h6 : w6.length = 2)
    (hT : wT.length = 8) (hTv : decodeVal wT = 25)
    (hS : wS.length = 16) (hH : wH.length = 8)
    (hD : wD.length = 2) (hW : wW.length = 6) (hSg : wSg.length = 1)
    (hRR : wRR.length = 8) (hRT : wRT.length = 5)
    (hDt : wDt.length = 16) (hIn : wIn.length = 15) (hPe : wPe.length = 12)
    (hLo : wLo.length = 11) (hEn : wEn.length = 2) (hEx : wEx.length = 1) :
    decodeRest ⟨pre ++ ([w1, w2, w3, w4, w5, w6, wT].flatten ++
        ([[false], [false]].flatten ++ ([wS, wH].flatten ++
        ([wD, wW, [], [], [], wSg, [false]].flatten ++
        ([wRR, wRT].flatten ++
        ([wDt, wIn, wPe, wLo, wEn, wEx].flatten ++ u)))))), pre.length⟩ =
      .ok (docOf headerSpecs [w1, w2, w3, w4, w5, w6, wT] ++
        (docOf accelSelectorSpecs [[false], [false]] ++
        (docOf accelNoExtSpecs [wS, wH] ++
        (docOf accelCommonSpecs [wD, wW, [], [], [], wSg, [false]] ++
        (docOf refSpecs [wRR, wRT] ++
        (docOf trailerFixedSpecs [wDt, wIn, wPe, wLo, wEn, wEx] ++
          [("user_data", TElem.ascii (-1) (asciiFromBits u))])))))) := by
  have hfh : List.Forall₂ (fun (p : String × FSpec) w => GoodWin p.2 w)
      headerSpecs [w1, w2, w3, w4, w5, w6, wT] := by
    simp [headerSpecs, List.forall₂_cons, GoodWin]
    omega
  have hfsel : List.Forall₂ (fun (p : String × FSpec) w => GoodWin p.2 w)
      accelSelectorSpecs [[false], [false]] := by
    simp [accelSelectorSpecs, List.forall₂_cons, GoodWin]
  have hfb : List.Forall₂ (fun (p : String × FSpec) w => GoodWin p.2 w)
      accelNoExtSpecs [wS, wH] := by
    simp [accelNoExtSpecs, List.forall₂_cons, GoodWin]
    omega
  have hfc : List.Forall₂ (fun (p : String × FSpec) w => GoodWin p.2 w)
      accelCommonSpecs [wD, wW, [], [], [], wSg, [false]] := by
    simp [accelCommonSpecs, List.forall₂_cons, GoodWin]
    omega
  have hfr : List.Forall₂ (fun (p : String × FSpec) w => GoodWin p.2 w)
      refSpecs [wRR, wRT] := by
    simp [refSpecs, List.forall₂_cons, GoodWin]
    omega
  have hft : List.Forall₂ (fun (p : String × FSpec) w => GoodWin p.2 w)
      trailerFixedSpecs [wDt, wIn, wPe, wLo, wEn, wEx] := by
    simp [trailerFixedSpecs, List.forall₂_cons, GoodWin]
    omega
  simp only [decodeRest]
  rw [process_windows headerSpecs [w1, w2, w3, w4, w5, w6, wT] hfh [] pre _]
  simp only [bindOk, List.nil_append]
  have htid : uintVal? (docOf headerSpecs [w1, w2, w3, w4, w5, w6, wT])
      "template_id" = some 25 := by
    simp [docOf, headerSpecs, fromBitsTotal, FSpec.fromBits, uintVal?,
      getElem?, List.find?, hTv]
  rw [htid]
  simp only [bindOk]
  have hload : ∀ (d : Doc) (c : Cursor),
      load_template 25 d c = accelerometer_force_template d c := fun _ _ => rfl
  rw [hload]
  simp only [accelerometer_force_template]
  rw [cursor_shift,
    process_windows accelSelectorSpecs [[false], [false]] hfsel]
  simp only [bindOk]
  have ha : uintVal? (docOf headerSpecs [w1, w2, w3, w4, w5, w6, wT] ++
      docOf accelSelectorSpecs [[false], [false]]) "acceleration_force" =
      some 0 := by
    simp [docOf, headerSpecs, accelSelectorSpecs, fromBitsTotal,
      FSpec.fromBits, uintVal?, getElem?, List.find?,
      show decodeVal [false] = 0 from by decide]
  have he : uintVal? (docOf headerSpecs [w1, w2, w3, w4, w5, w6, wT] ++
      docOf accelSelectorSpecs [[false], [false]]) "extended_functionality" =
      some 0 := by
    simp [docOf, headerSpecs, accelSelectorSpecs, fromBitsTotal,
      FSpec.fromBits, uintVal?, getElem?, List.find?,
      show decodeVal [false] = 0 from by decide]
  rw [if_pos ⟨ha, he⟩]
  rw [cursor_shift, process_windows accelNoExtSpecs [wS, wH] hfb]
  simp only [bindOk]
  rw [cursor_shift,
    process_windows accelCommonSpecs [wD, wW, [], [], [], wSg, [false]] hfc]
  simp only [bindOk]
  have htf : uintVal? (docOf headerSpecs [w1, w2, w3, w4, w5, w6, wT] ++
      (docOf accelSelectorSpecs [[false], [false]] ++
      (docOf accelNoExtSpecs [wS, wH] ++
      docOf accelCommonSpecs [wD, wW, [], [], [], wSg, [false]])))
      "transfer_function" = some 0 := by
    simp [docOf, headerSpecs, accelSelectorSpecs, accelNoExtSpecs,
      accelCommonSpecs, fromBitsTotal, FSpec.fromBits, uintVal?, getElem?,
      List.find?, show decodeVal [false] = 0 from by decide]
  rw [if_neg (by simp [htf])]
  simp only [bindOk]
  rw [cursor_shift, process_windows refSpecs [wRR, wRT] hfr]
  simp only [bindOk]
  rw [trailerSpecs_split, process_append]
  rw [cursor_shift,
    process_windows trailerFixedSpecs [wDt, wIn, wPe, wLo, wEn, wEx] hft]
  simp only [bindOk]
  rw [cursor_shift, process_user_data]
  simp only [bindOk]
  simp [List.append_assoc]

theorem ofSci_true_def (m e : ℕ) :
    (OfScientific.ofScientific m true e : Frac) = ⟨(m : ℤ), (10 : ℤ) ^ e⟩ := rfl

theorem roundSpec_conRelRes (n : ℕ) (s t : Frac) (hs : 0 < s.num)
    (hsd : 0 < s.den) (ht : 0 < t.num) (htd : 0 < t.den) :
    RoundSpec (.conRelRes n s t) := by
  refine ⟨by omega, by omega, ?_, ?_⟩
  · exact div_pos (by exact_mod_cast hs) (by exact_mod_cast hsd)
  · exact div_pos (by exact_mod_cast ht) (by exact_mod_cast htd)

theorem roundSpec_conRes (n : ℕ) (s t : Frac) (hsd : s.den ≠ 0)
    (htd : t.den ≠ 0) (ht : t.num ≠ 0) : RoundSpec (.conRes n s t) := by
  refine ⟨hsd, htd, ?_⟩
  exact div_ne_zero (by exact_mod_cast ht) (by exact_mod_cast htd)

theorem hr_header : ∀ p ∈ headerSpecs, RoundSpec p.2 := by
  intro p hp
  fin_cases hp <;> trivial

theorem hr_sel : ∀ p ∈ accelSelectorSpecs, RoundSpec p.2 := by
  intro p hp
  fin_cases hp <;> trivial

theorem hr_body : ∀ p ∈ accelNoExtSpecs, RoundSpec p.2 := by
  intro p hp
  fin_cases hp <;>
    exact roundSpec_conRelRes _ _ _ (by decide) (by decide) (by decide) (by decide)

theorem hr_common : ∀ p ∈ accelCommonSpecs, RoundSpec p.2 := by
  intro p hp
  fin_cases hp <;> first
    | trivial
    | exact roundSpec_conRelRes _ _ _ (by decide) (by decide) (by decide) (by decide)

theorem hr_ref : ∀ p ∈ refSpecs, RoundSpec p.2 := by
  intro p hp
  fin_cases hp
  · exact roundSpec_conRelRes _ _ _ (by decide) (by decide) (by decide) (by decide)
  · exact roundSpec_conRes _ _ _ (by decide) (by decide) (by decide)

theorem hr_trailerFixed : ∀ p ∈ trailerFixedSpecs, RoundSpec p.2 := by
  intro p hp
  fin_cases hp <;> trivial

theorem encodeFields_user (u : Bits) (hu : u.length % 7 = 0) :
    encodeFields [("user_data", TElem.ascii (-1) (asciiFromBits u))] =
      .ok u := by
  simp only [encodeFields, encodeFields_match_to_bits, TElem.to_bits, bindOk]
  rw [ascii_join u.length u (le_refl _) hu]
  simp

theorem encodeTeds_accel_basic
    (w1 w2 w3 w4 w5 w6 wT wS wH wD wW wSg wRR wRT wDt wIn wPe wLo wEn wEx
      u : Bits)
    (h1 : w1.length = 14) (h2 : w2.length = 15) (h3 : w3.length = 5)
    (h4 : w4.length = 6) (h5 : w5.length = 24) (h6 : w6.length = 2)
    (hT : wT.length = 8)
    (hS : wS.length = 16) (hH : wH.length = 8)
    (hD : wD.length = 2) (hW : wW.length = 6) (hSg : wSg.length = 1)
    (hRR : wRR.length = 8) (hRT : wRT.length = 5)
    (hDt : wDt.length = 16) (hIn : wIn.length = 15) (hPe : wPe.length = 12)
    (hLo : wLo.length = 11) (hEn : wEn.length = 2) (hEx : wEx.length = 1)
    (hu : u.length % 7 = 0) :
    encodeTeds (docOf headerSpecs [w1, w2, w3, w4, w5, w6, wT] ++
        (docOf accelSelectorSpecs [[false], [false]] ++
        (docOf accelNoExtSpecs [wS, wH] ++
        (docOf accelCommonSpecs [wD, wW, [], [], [], wSg, [false]] ++
        (docOf refSpecs [wRR, wRT] ++
        (docOf trailerFixedSpecs [wDt, wIn, wPe, wLo, wEn, wEx] ++
          [("user_data", TElem.ascii (-1) (asciiFromBits u))])))))) =
      .ok (preambleBits ++ ([w1, w2, w3, w4, w5, w6, wT].flatten ++
        ([[false], [false]].flatten ++ ([wS, wH].flatten ++
        ([wD, wW, [], [], [], wSg, [false]].flatten ++
        ([wRR, wRT].flatten ++
        ([wDt, wIn, wPe, wLo, wEn, wEx].flatten ++ u))))))) := by
  have hfh : List.Forall₂ (fun (p : String × FSpec) w => GoodWin p.2 w)
      headerSpecs [w1, w2, w3, w4, w5, w6, wT] := by
    simp [headerSpecs, List.forall₂_cons, GoodWin]
    omega
  have hfsel : List.Forall₂ (fun (p : String × FSpec) w => GoodWin p.2 w)
      accelSelectorSpecs [[false], [false]] := by
    simp [accelSelectorSpecs, List.forall₂_cons, GoodWin]
  have hfb : List.Forall₂ (fun (p : String × FSpec) w => GoodWin p.2 w)
      accelNoExtSpecs [wS, wH] := by
    simp [accelNoExtSpecs, List.forall₂_cons, GoodWin]
    omega
  have hfc : List.Forall₂ (fun (p : String × FSpec) w => GoodWin p.2 w)
      accelCommonSpecs [wD, wW, [], [], [], wSg, [false]] := by
    simp [accelCommonSpecs, List.forall₂_cons, GoodWin]
    omega
  have hfr : List.Forall₂ (fun (p : String × FSpec) w => GoodWin p.2 w)
      refSpecs [wRR, wRT] := by
    simp [refSpecs, List.forall₂_cons, GoodWin]
    omega
  have hft : List.Forall₂ (fun (p : String × FSpec) w => GoodWin p.2 w)
      trailerFixedSpecs [wDt, wIn, wPe, wLo, wEn, wEx] := by
    simp [trailerFixedSpecs, List.forall₂_cons, GoodWin]
    omega
  unfold encodeTeds
  rw [encodeFields_append, encodeFields_docOf headerSpecs _ hfh hr_header, bindOk,
    encodeFields_append, encodeFields_docOf accelSelectorSpecs _ hfsel hr_sel,
    bindOk,
    encodeFields_append, encodeFields_docOf accelNoExtSpecs _ hfb hr_body, bindOk,
    encodeFields_append, encodeFields_docOf accelCommonSpecs _ hfc hr_common,
    bindOk,
    encodeFields_append, encodeFields_docOf refSpecs _ hfr hr_ref, bindOk,
    encodeFields_append,
    encodeFields_docOf trailerFixedSpecs _ hft hr_trailerFixed, bindOk,
    encodeFields_user u hu, bindOk]
  simp [bindOk, List.append_assoc]

end PipelineLemmas

section SupportLemmas

theorem bitsLSB_range_map_mod (k c : ℕ) :
    bitsLSB ((List.range k).map (fun i => c.testBit i)) = c % 2 ^ k := by
  have hmap : (List.range k).map (fun i => c.testBit i) =
      (List.range k).map (fun i => (c % 2 ^ k).testBit i) := by
    apply List.map_congr_left
    intro i hi
    rw [Nat.testBit_mod_two_pow]
    simp [List.mem_range.mp hi]
  rw [hmap, bitsLSB_range_map _ _ (Nat.mod_lt _ (by positivity))]

theorem chr5CharBits_length (c : ℕ) : (chr5CharBits c).length = 5 := by
  rw [chr5CharBits_eq]
  simp

theorem asciiCharBits_length (c : ℕ) (hc : c < 2 ^ 7) :
    (asciiCharBits c).length = 7 := by
  rw [asciiCharBits_eq c hc]
  simp

theorem length_flatMap_chr5 (cs : List ℕ) :
    (cs.flatMap chr5CharBits).length = 5 * cs.length := by
  induction cs with
  | nil => rfl
  | cons c t ih =>
      rw [List.flatMap_cons, List.length_append, ih, chr5CharBits_length,
        List.length_cons]
      ring

theorem length_flatMap_ascii (cs : List ℕ) (h : ∀ c ∈ cs, c < 2 ^ 7) :
    (cs.flatMap asciiCharBits).length = 7 * cs.length := by
  induction cs with
  | nil => rfl
  | cons c t ih =>
      rw [List.flatMap_cons, List.length_append,
        ih (fun x hx => h x (List.mem_cons_of_mem _ hx)),
        asciiCharBits_length c (h c (List.mem_cons_self _ _)), List.length_cons]
      ring

theorem bitGroups_flatMap (n : ℕ) (hn : 0 < n) (f : ℕ → Bits)
    (cs : List ℕ) (hf : ∀ c ∈ cs, (f c).length = n) :
    bitGroups n (cs.flatMap f) = cs.map f := by
  induction cs with
  | nil => exact bitGroups_nil n
  | cons c t ih =>
      rw [List.flatMap_cons, bitGroups_cons n hn _ _ (hf c (List.mem_cons_self _ _)),
        List.map_cons, ih (fun x hx => hf x (List.mem_cons_of_mem _ hx))]

end SupportLemmas

section Claims

set_option maxRecDepth 40000

/-- C1 counterexample: a buffer whose `template_id` is 99 decodes
successfully — no `UnsupportedTemplate` failure occurs. -/
theorem unknown_template_decodes : (decodeTeds stream99 false).isOk = true := by
  decide

/-- C1 (amended): for a `template_id` that is neither 25 nor 36,
`load_template` matches no case and leaves the document and cursor
untouched, so decoding proceeds directly to the common trailer; a
99-template buffer with a complete trailer decodes without error. -/
theorem unknown_template_skips_body :
    (∀ (t : ℕ) (d : Doc) (c : Cursor), t ≠ 25 → t ≠ 36 →
      load_template t d c = .ok (d, c)) ∧
    (decodeTeds stream99 false).isOk = true := by
  constructor
  · intro t d c h25 h36
    unfold load_template
    split
    · exact absurd rfl h25
    · exact absurd rfl h36
    · rfl
  · decide

/-- C1 witness: the amended fact at `template_id = 99`. -/
theorem unknown_template_skips_body_witness :
    load_template 99 [] ⟨[], 0⟩ = .ok ([], ⟨[], 0⟩) :=
  unknown_template_skips_body.1 99 [] ⟨[], 0⟩ (by decide) (by decide)

/-- C3: the linear encoder computes the raw code without rounding.
At the `ref_temp` field (width 5, start 15, step 0.5) with value 15.3 the
unrounded quotient is 3/5; the bit packer rejects the non-integer and the
encode fails, where the spec's `round((val - start)/step)` would give 1. -/
theorem conRes_encode_unrounded :
    (TElem.conRes 5 15 0.5 15.3).to_bits = .error .creationError ∧
    (((15.3 : Frac) - 15) / 0.5).toRat = 3 / 5 ∧
    round ((3 : ℚ) / 5) = 1 := by
  refine ⟨by decide, ?_, ?_⟩
  · have h : ((15.3 : Frac) - 15) / 0.5 = (⟨30, 50⟩ : Frac) := by decide
    rw [h]
    unfold Frac.toRat
    norm_num
  · rw [round_eq]
    norm_num

/-- C4 counterexample: encoding the value 5 in a 4-bit field emits the 4
bits `1010`, not the byte-padded `00001010` the claim describes, and the
emission is not a whole number of bytes. -/
theorem encode_no_byte_padding :
    (TElem.unInt 4 5).to_bits = .ok [true, false, true, false] ∧
    paddedFieldBits 4 5 =
      [false, false, false, false, true, false, true, false] ∧
    (TElem.unInt 4 5).to_bits ≠ .ok (paddedFieldBits 4 5) ∧
    ¬ (8 ∣ ([true, false, true, false] : Bits).length) := by
  refine ⟨by decide, by decide, by decide, by decide⟩

/-- C4 (amended): on the encode path a field's emitted bits are the
value's bits at the logical width, reversed, with no padding: an
unsigned or date field emits exactly `len` bits, a Chr5 string 5 bits per
character and an Ascii7 string 7 bits per character, so emissions need
not fall on byte boundaries. -/
theorem encode_emits_logical_width :
    (∀ len v : ℕ, v < 2 ^ len →
      (TElem.unInt len v).to_bits = .ok (reverse_bitstream (natToBitsBE len v)) ∧
      (reverse_bitstream (natToBitsBE len v)).length = len) ∧
    (∀ len d : ℕ, d < 2 ^ len →
      (TElem.date len d).to_bits = .ok (reverse_bitstream (natToBitsBE len d))) ∧
    (∀ (l : ℕ) (cs : List ℕ),
      (TElem.chr5 l cs).to_bits = .ok (cs.flatMap chr5CharBits) ∧
      (cs.flatMap chr5CharBits).length = 5 * cs.length) ∧
    (∀ (l : ℤ) (cs : List ℕ), (∀ c ∈ cs, c < 2 ^ 7) →
      (TElem.ascii l cs).to_bits = .ok (cs.flatMap asciiCharBits) ∧
      (cs.flatMap asciiCharBits).length = 7 * cs.length) := by
  refine ⟨?_, ?_, ?_, ?_⟩
  · intro len v hv
    constructor
    · show to_bitstream len v = _
      unfold to_bitstream
      rw [if_pos hv]
    · unfold reverse_bitstream natToBitsBE
      simp
  · intro len d hd
    show to_bitstream len d = _
    unfold to_bitstream
    rw [if_pos hd]
  · intro l cs
    refine ⟨rfl, ?_⟩
    induction cs with
    | nil => rfl
    | cons c t ih =>
        rw [List.flatMap_cons, List.length_append, ih, chr5CharBits_length,
          List.length_cons]
        ring
  · intro l cs hcs
    refine ⟨rfl, ?_⟩
    induction cs with
    | nil => rfl
    | cons c t ih =>
        rw [List.flatMap_cons, List.length_append,
          ih (fun x hx => hcs x (List.mem_cons_of_mem _ hx)),
          asciiCharBits_length c (hcs c (List.mem_cons_self _ _)),
          List.length_cons]
        ring

/-- C4 witness: the amended emission facts at concrete fields. -/
theorem encode_emits_logical_width_witness :
    (TElem.unInt 4 5).to_bits = .ok (reverse_bitstream (natToBitsBE 4 5)) ∧
    (TElem.date 16 3).to_bits = .ok (reverse_bitstream (natToBitsBE 16 3)) ∧
    ([97].flatMap asciiCharBits).length = 7 * ([97] : List ℕ).length :=
  ⟨(encode_emits_logical_width.1 4 5 (by decide)).1,
    encode_emits_logical_width.2.1 16 3 (by decide),
    (encode_emits_logical_width.2.2.2 7 [97]
      (by intro c hc; simp at hc; omega)).2⟩

/-- C5: with `has_preamble` the decoder reads the first 40 bits and
fails with the preamble error exactly when they differ from
`0xDA6E0CCCBA`; when they match it continues decoding from bit 40; with
`has_preamble = false` no check happens and the header is read from
bit 0. -/
theorem preamble_check_behaviour (s : Bits) :
    (40 ≤ s.length → s.take 40 ≠ preambleBits →
      decodeTeds s true = .error .invalidPreamble) ∧
    (s.take 40 = preambleBits → decodeTeds s true = decodeRest ⟨s, 40⟩) ∧
    decodeTeds s false = decodeRest ⟨s, 0⟩ :=
  ⟨fun hl hne => decodeTeds_true_bad s hl hne,
    fun h => decodeTeds_true_ok s h,
    decodeTeds_false s⟩

/-- C5 witness: a 40-bit buffer of ones fails the preamble check. -/
theorem preamble_check_behaviour_witness :
    decodeTeds (List.replicate 40 true) true = .error .invalidPreamble :=
  (preamble_check_behaviour (List.replicate 40 true)).1 (by decide) (by decide)

/-- C10: the remainder Ascii7 decode keeps only the complete 7-bit
groups: it never fails, its output has exactly `⌊len/7⌋` characters, and
a trailing group of fewer than 7 bits is discarded without effect. -/
theorem ascii_remainder_floor (bs : Bits) :
    (FSpec.ascii (-1)).fromBits bs = .ok (.ascii (-1) (asciiFromBits bs)) ∧
    (asciiFromBits bs).length = bs.length / 7 ∧
    asciiFromBits bs = asciiFromBits (bs.take (7 * (bs.length / 7))) := by
  refine ⟨rfl, ?_, ?_⟩
  · unfold asciiFromBits bitGroups
    simp
  · unfold asciiFromBits
    rw [bitGroups_take 7 (by norm_num) bs.length bs (le_refl _)]


/-- C7: bit-exact encode-then-decode round trips: an UnsignedInt of any
width `len` and value below `2^len` decodes back to itself (value 5 in a
4-bit field emits the pattern `1010`), and the same holds for Date values
and for Chr5/Ascii7 strings over their representable character ranges. -/
theorem field_roundtrips :
    (∀ len v : ℕ, v < 2 ^ len →
      ((TElem.unInt len v).to_bits).bind ((FSpec.unInt len).fromBits) =
        .ok (.unInt len v)) ∧
    (∀ len d : ℕ, d < 2 ^ len →
      ((TElem.date len d).to_bits).bind ((FSpec.date len).fromBits) =
        .ok (.date len d)) ∧
    (∀ cs : List ℕ, (∀ c ∈ cs, 96 ≤ c ∧ c < 128) →
      ((TElem.chr5 (5 * cs.length) cs).to_bits).bind
          ((FSpec.chr5 (5 * cs.length)).fromBits) =
        .ok (.chr5 (5 * cs.length) cs)) ∧
    (∀ cs : List ℕ, (∀ c ∈ cs, c < 2 ^ 7) →
      ((TElem.ascii (7 * cs.length) cs).to_bits).bind
          ((FSpec.ascii (7 * cs.length)).fromBits) =
        .ok (.ascii (7 * cs.length) cs)) ∧
    (TElem.unInt 4 5).to_bits = .ok [true, false, true, false] := by
  refine ⟨?_, ?_, ?_, ?_, by decide⟩
  · intro len v hv
    rw [show (TElem.unInt len v).to_bits = to_bitstream len v from rfl,
      to_bitstream_eq len v hv, bindOk]
    simp only [FSpec.fromBits, decodeVal_eq_bitsLSB, bitsLSB_range_map len v hv]
  · intro len d hd
    rw [show (TElem.date len d).to_bits = to_bitstream len d from rfl,
      to_bitstream_eq len d hd, bindOk]
    simp only [FSpec.fromBits, decodeVal_eq_bitsLSB, bitsLSB_range_map len d hd]
  · intro cs hcs
    have hw : (cs.flatMap chr5CharBits).length = 5 * cs.length :=
      length_flatMap_chr5 cs
    have hmod : (cs.flatMap chr5CharBits).length % 5 = 0 := by
      rw [hw]
      exact Nat.mul_mod_right 5 cs.length
    have hg : GoodWin (.chr5 (5 * cs.length)) (cs.flatMap chr5CharBits) :=
      ⟨hw.symm, hmod⟩
    rw [show (TElem.chr5 (5 * cs.length) cs).to_bits =
        .ok (cs.flatMap chr5CharBits) from rfl, bindOk,
      fromBits_eq_total _ _ hg, fromBitsTotal_chr5 _ _ hmod]
    have hgr : bitGroups 5 (cs.flatMap chr5CharBits) = cs.map chr5CharBits :=
      bitGroups_flatMap 5 (by norm_num) chr5CharBits cs
        (fun c _ => chr5CharBits_length c)
    rw [hgr, List.map_map]
    have hid : cs.map ((fun g => 96 + decodeVal g) ∘ chr5CharBits) =
        cs.map id := by
      apply List.map_congr_left
      intro c hc
      obtain ⟨hc1, hc2⟩ := hcs c hc
      simp only [Function.comp_apply, id]
      rw [chr5CharBits_eq, decodeVal_eq_bitsLSB, bitsLSB_range_map_mod]
      have h32 : c % 2 ^ 5 = c % 32 := by norm_num
      rw [h32]
      omega
    rw [hid, List.map_id]
  · intro cs hcs
    rw [show (TElem.ascii (7 * cs.length) cs).to_bits =
        .ok (cs.flatMap asciiCharBits) from rfl, bindOk]
    show Except.ok (TElem.ascii (7 * cs.length)
        (asciiFromBits (cs.flatMap asciiCharBits))) = _
    have hgr : bitGroups 7 (cs.flatMap asciiCharBits) = cs.map asciiCharBits :=
      bitGroups_flatMap 7 (by norm_num) asciiCharBits cs
        (fun c hc => asciiCharBits_length c (hcs c hc))
    unfold asciiFromBits
    rw [hgr, List.map_map]
    have hid : cs.map ((fun g => decodeVal g) ∘ asciiCharBits) = cs.map id := by
      apply List.map_congr_left
      intro c hc
      simp only [Function.comp_apply, id]
      rw [asciiCharBits_eq c (hcs c hc), decodeVal_eq_bitsLSB,
        bitsLSB_range_map 7 c (hcs c hc)]
    rw [hid, List.map_id]

/-- C7 witness: the round trips at concrete values (5 in 4 bits, day 7,
the string "a" in both character codings). -/
theorem field_roundtrips_witness :
    ((TElem.unInt 4 5).to_bits).bind ((FSpec.unInt 4).fromBits) =
      .ok (.unInt 4 5) ∧
    ((TElem.date 16 7).to_bits).bind ((FSpec.date 16).fromBits) =
      .ok (.date 16 7) ∧
    ((TElem.chr5 (5 * [97].length) [97]).to_bits).bind
      ((FSpec.chr5 (5 * [97].length)).fromBits) = .ok (.chr5 (5 * [97].length) [97]) ∧
    ((TElem.ascii (7 * [97].length) [97]).to_bits).bind
      ((FSpec.ascii (7 * [97].length)).fromBits) =
      .ok (.ascii (7 * [97].length) [97]) :=
  ⟨field_roundtrips.1 4 5 (by decide),
    field_roundtrips.2.1 16 7 (by decide),
    field_roundtrips.2.2.1 [97] (by intro c hc; simp at hc; omega),
    field_roundtrips.2.2.2.1 [97] (by intro c hc; simp at hc; omega)⟩

/-- C9: when exactly the 57 fixed trailer bits remain, `end_template`
processing succeeds, and `user_data` decodes to the empty string; a
complete 131-bit template-99 buffer decodes successfully with empty
`user_data`. -/
theorem trailer_empty_user_data
    (doc : Doc) (pre wDt wIn wPe wLo wEn wEx : Bits)
    (hDt : wDt.length = 16) (hIn : wIn.length = 15) (hPe : wPe.length = 12)
    (hLo : wLo.length = 11) (hEn : wEn.length = 2) (hEx : wEx.length = 1) :
    process trailerSpecs doc
        ⟨pre ++ [wDt, wIn, wPe, wLo, wEn, wEx].flatten, pre.length⟩ =
      .ok (doc ++ (docOf trailerFixedSpecs [wDt, wIn, wPe, wLo, wEn, wEx] ++
          [("user_data", TElem.ascii (-1) [])]),
        ⟨pre ++ [wDt, wIn, wPe, wLo, wEn, wEx].flatten,
          (pre ++ [wDt, wIn, wPe, wLo, wEn, wEx].flatten).length⟩) ∧
    (decodeTeds stream99 false).toOption.map
        (fun d => getElem? d "user_data") =
      some (some (TElem.ascii (-1) [])) := by
  constructor
  · have hft : List.Forall₂ (fun (p : String × FSpec) w => GoodWin p.2 w)
        trailerFixedSpecs [wDt, wIn, wPe, wLo, wEn, wEx] := by
      simp [trailerFixedSpecs, List.forall₂_cons, GoodWin]
      omega
    have hb : pre ++ [wDt, wIn, wPe, wLo, wEn, wEx].flatten =
        pre ++ ([wDt, wIn, wPe, wLo, wEn, wEx].flatten ++ []) := by
      simp
    rw [hb, trailerSpecs_split, process_append,
      process_windows trailerFixedSpecs [wDt, wIn, wPe, wLo, wEn, wEx] hft,
      bindOk, cursor_shift, process_user_data]
    show Except.ok _ = _
    have hempty : asciiFromBits ([] : Bits) = [] := rfl
    rw [hempty]
    simp [List.append_assoc]
  · decide

/-- C9 witness: the trailer fact at a concrete all-zero 57-bit tail. -/
theorem trailer_empty_user_data_witness :
    process trailerSpecs []
        ⟨([] : Bits) ++ [List.replicate 16 false, List.replicate 15 false,
          List.replicate 12 false, List.replicate 11 false,
          List.replicate 2 false, List.replicate 1 false].flatten,
          ([] : Bits).length⟩ =
      .ok ([] ++ (docOf trailerFixedSpecs [List.replicate 16 false,
            List.replicate 15 false, List.replicate 12 false,
            List.replicate 11 false, List.replicate 2 false,
            List.replicate 1 false] ++
          [("user_data", TElem.ascii (-1) [])]),
        ⟨([] : Bits) ++ [List.replicate 16 false, List.replicate 15 false,
          List.replicate 12 false, List.replicate 11 false,
          List.replicate 2 false, List.replicate 1 false].flatten,
          (([] : Bits) ++ [List.replicate 16 false, List.replicate 15 false,
            List.replicate 12 false, List.replicate 11 false,
            List.replicate 2 false, List.replicate 1 false].flatten).length⟩) :=
  (trailer_empty_user_data [] [] (List.replicate 16 false)
    (List.replicate 15 false) (List.replicate 12 false)
    (List.replicate 11 false) (List.replicate 2 false)
    (List.replicate 1 false) (by decide) (by decide) (by decide) (by decide)
    (by decide) (by decide)).1


/-- C8: any template-25 buffer whose `acceleration_force` bit is 1 — with
either value of `extended_functionality` and any remaining bits — fails
with `UnsupportedBranch`, and no document is returned. -/
theorem force_branch_unsupported
    (w1 w2 w3 w4 w5 w6 wT : Bits) (e : Bool) (rest : Bits)
    (h1 : w1.length = 14) (h2 : w2.length = 15) (h3 : w3.length = 5)
    (h4 : w4.length = 6) (h5 : w5.length = 24) (h6 : w6.length = 2)
    (hT : wT.length = 8) (hTv : decodeVal wT = 25) :
    decodeTeds ([w1, w2, w3, w4, w5, w6, wT].flatten ++
        ([[true], [e]].flatten ++ rest)) false = .error .unsupportedBranch ∧
    ∀ d : Doc, decodeTeds ([w1, w2, w3, w4, w5, w6, wT].flatten ++
        ([[true], [e]].flatten ++ rest)) false ≠ .ok d := by
  have hfh : List.Forall₂ (fun (p : String × FSpec) w => GoodWin p.2 w)
      headerSpecs [w1, w2, w3, w4, w5, w6, wT] := by
    simp [headerSpecs, List.forall₂_cons, GoodWin]
    omega
  have hfsel : List.Forall₂ (fun (p : String × FSpec) w => GoodWin p.2 w)
      accelSelectorSpecs [[true], [e]] := by
    simp [accelSelectorSpecs, List.forall₂_cons, GoodWin]
  have hmain : decodeTeds ([w1, w2, w3, w4, w5, w6, wT].flatten ++
      ([[true], [e]].flatten ++ rest)) false = .error .unsupportedBranch := by
    rw [decodeTeds_false]
    have hc0 : (⟨[w1, w2, w3, w4, w5, w6, wT].flatten ++
        ([[true], [e]].flatten ++ rest), 0⟩ : Cursor) =
        ⟨[] ++ ([w1, w2, w3, w4, w5, w6, wT].flatten ++
          ([[true], [e]].flatten ++ rest)), ([] : Bits).length⟩ := by
      simp
    rw [hc0]
    simp only [decodeRest]
    rw [process_windows headerSpecs [w1, w2, w3, w4, w5, w6, wT] hfh []]
    simp only [bindOk, List.nil_append]
    have htid : uintVal? (docOf headerSpecs [w1, w2, w3, w4, w5, w6, wT])
        "template_id" = some 25 := by
      simp [docOf, headerSpecs, fromBitsTotal, FSpec.fromBits, uintVal?,
        getElem?, List.find?, hTv]
    rw [htid]
    simp only [bindOk]
    have hload : ∀ (d : Doc) (c : Cursor),
        load_template 25 d c = accelerometer_force_template d c := fun _ _ => rfl
    rw [hload]
    simp only [accelerometer_force_template]
    simp only [List.length_nil, Nat.zero_add]
    rw [process_windows accelSelectorSpecs [[true], [e]] hfsel]
    simp only [bindOk]
    have ha : uintVal? (docOf headerSpecs [w1, w2, w3, w4, w5, w6, wT] ++
        docOf accelSelectorSpecs [[true], [e]]) "acceleration_force" =
        some 1 := by
      simp [docOf, headerSpecs, accelSelectorSpecs, fromBitsTotal,
        FSpec.fromBits, uintVal?, getElem?, List.find?,
        show decodeVal [true] = 1 from by decide]
    have he : uintVal? (docOf headerSpecs [w1, w2, w3, w4, w5, w6, wT] ++
        docOf accelSelectorSpecs [[true], [e]]) "extended_functionality" =
        some (decodeVal [e]) := by
      simp [docOf, headerSpecs, accelSelectorSpecs, fromBitsTotal,
        FSpec.fromBits, uintVal?, getElem?, List.find?]
    rw [if_neg (by simp [ha])]
    cases e with
    | false =>
        rw [if_pos ⟨ha, by rw [he]; decide⟩]
        simp only [bindErr]
    | true =>
        rw [if_neg (by rw [he]; intro hcon; exact absurd hcon.2 (by decide)),
          if_neg (by simp [ha]),
          if_pos ⟨ha, by rw [he]; decide⟩]
        simp only [bindErr]
  refine ⟨hmain, ?_⟩
  intro d hd
  rw [hmain] at hd
  exact absurd hd (by simp)

/-- C8 witness: the failure at a concrete all-zero header with the force
bit set. -/
theorem force_branch_unsupported_witness :
    decodeTeds ([List.replicate 14 false, List.replicate 15 false,
        List.replicate 5 false, List.replicate 6 false,
        List.replicate 24 false, List.replicate 2 false,
        [true, false, false, true, true, false, false, false]].flatten ++
      ([[true], [false]].flatten ++ [])) false = .error .unsupportedBranch :=
  (force_branch_unsupported (List.replicate 14 false) (List.replicate 15 false)
    (List.replicate 5 false) (List.replicate 6 false) (List.replicate 24 false)
    (List.replicate 2 false) [true, false, false, true, true, false, false, false]
    false [] (by decide) (by decide) (by decide) (by decide) (by decide)
    (by decide) (by decide) (by decide)).1

/-- C6 counterexample: a document decoded with `has_preamble = false`
from a buffer that does not start with the preamble is nevertheless
re-encoded with the 40 preamble bits prefixed. -/
theorem preamble_reemitted_without_decode_preamble :
    (decodeTeds streamAccelNoPre2 false).bind encodeTeds =
      .ok (preambleBits ++ streamAccelNoPre2) ∧
    streamAccelNoPre2.take 40 ≠ preambleBits := by
  refine ⟨by decide, by decide⟩

/-- C6 (amended): `write_teds_to_file` starts its output from
`BitStream(cls.ni_preamble)` unconditionally, so every successful
re-encode of a decoded document begins with the preamble constant,
whatever `has_preamble` was at decode time. -/
theorem encode_always_prefixes_preamble (s : Bits) (hp : Bool) (out : Bits)
    (h : (decodeTeds s hp).bind encodeTeds = .ok out) :
    out.take 40 = preambleBits := by
  cases hd : decodeTeds s hp with
  | error err =>
      rw [hd] at h
      exact absurd h (by simp [Except.bind])
  | ok d =>
      rw [hd] at h
      simp only [bindOk] at h
      unfold encodeTeds at h
      cases hf : encodeFields d with
      | error err =>
          rw [hf] at h
          exact absurd h (by simp [Except.bind])
      | ok body =>
          rw [hf] at h
          simp only [bindOk] at h
          have hout : preambleBits ++ body = out := by
            simpa using h
          rw [← hout]
          exact List.take_left' preambleBits_length

/-- C6 witness: the amended fact at the concrete preamble-less buffer. -/
theorem encode_always_prefixes_preamble_witness :
    (preambleBits ++ streamAccelNoPre2).take 40 = preambleBits :=
  encode_always_prefixes_preamble streamAccelNoPre2 false
    (preambleBits ++ streamAccelNoPre2) (by decide)


/-- C2 counterexample: a syntactically valid, preamble-less
accelerometer-basic buffer does not satisfy `encode(decode(bytes)) ==
bytes`: the re-encoded stream is the input with the 40 preamble bits
prefixed. -/
theorem encode_decode_not_input :
    (decodeTeds streamAccelNoPre false).bind encodeTeds =
      .ok (preambleBits ++ streamAccelNoPre) ∧
    preambleBits ++ streamAccelNoPre ≠ streamAccelNoPre := by
  refine ⟨by decide, by decide⟩

/-- C2 (amended): `encode(decode(bytes)) == bytes` holds (under exact
arithmetic in the scaled-field inverses) exactly for the
accelerometer-basic, non-extended, no-transfer-function streams that
begin with the vendor preamble and are decoded with `has_preamble = true`,
and whose user-data remainder is a whole number of 7-bit characters; for
such a stream, decode followed by encode reproduces it bit for bit. -/
theorem accel_basic_roundtrip
    (w1 w2 w3 w4 w5 w6 wT wS wH wD wW wSg wRR wRT wDt wIn wPe wLo wEn wEx
      u : Bits)
    (h1 : w1.length = 14) (h2 : w2.length = 15) (h3 : w3.length = 5)
    (h4 : w4.length = 6) (h5 : w5.length = 24) (h6 : w6.length = 2)
    (hT : wT.length = 8) (hTv : decodeVal wT = 25)
    (hS : wS.length = 16) (hH : wH.length = 8)
    (hD : wD.length = 2) (hW : wW.length = 6) (hSg : wSg.length = 1)
    (hRR : wRR.length = 8) (hRT : wRT.length = 5)
    (hDt : wDt.length = 16) (hIn : wIn.length = 15) (hPe : wPe.length = 12)
    (hLo : wLo.length = 11) (hEn : wEn.length = 2) (hEx : wEx.length = 1)
    (hu : u.length % 7 = 0) :
    (decodeTeds (preambleBits ++ ([w1, w2, w3, w4, w5, w6, wT].flatten ++
        ([[false], [false]].flatten ++ ([wS, wH].flatten ++
        ([wD, wW, [], [], [], wSg, [false]].flatten ++
        ([wRR, wRT].flatten ++
        ([wDt, wIn, wPe, wLo, wEn, wEx].flatten ++ u))))))) true).bind
      encodeTeds =
      .ok (preambleBits ++ ([w1, w2, w3, w4, w5, w6, wT].flatten ++
        ([[false], [false]].flatten ++ ([wS, wH].flatten ++
        ([wD, wW, [], [], [], wSg, [false]].flatten ++
        ([wRR, wRT].flatten ++
        ([wDt, wIn, wPe, wLo, wEn, wEx].flatten ++ u))))))) := by
  rw [decodeTeds_true_ok _ (List.take_left' preambleBits_length)]
  rw [show (40 : ℕ) = preambleBits.length from preambleBits_length.symm]
  rw [decodeRest_accel_basic preambleBits w1 w2 w3 w4 w5 w6 wT wS wH wD wW wSg
    wRR wRT wDt wIn wPe wLo wEn wEx u h1 h2 h3 h4 h5 h6 hT hTv hS hH hD hW hSg
    hRR hRT hDt hIn hPe hLo hEn hEx]
  simp only [bindOk]
  exact encodeTeds_accel_basic w1 w2 w3 w4 w5 w6 wT wS wH wD wW wSg wRR wRT
    wDt wIn wPe wLo wEn wEx u h1 h2 h3 h4 h5 h6 hT hS hH hD hW hSg hRR hRT
    hDt hIn hPe hLo hEn hEx hu

/-- C2 witness: the amended round trip at an all-zero template-25 stream
with the preamble and empty user data. -/
theorem accel_basic_roundtrip_witness :
    (decodeTeds (preambleBits ++ ([List.replicate 14 false,
        List.replicate 15 false, List.replicate 5 false,
        List.replicate 6 false, List.replicate 24 false,
        List.replicate 2 false,
        [true, false, false, true, true, false, false, false]].flatten ++
        ([[false], [false]].flatten ++
        ([List.replicate 16 false, List.replicate 8 false].flatten ++
        ([List.replicate 2 false, List.replicate 6 false, [], [], [],
          List.replicate 1 false, [false]].flatten ++
        ([List.replicate 8 false, List.replicate 5 false].flatten ++
        ([List.replicate 16 false, List.replicate 15 false,
          List.replicate 12 false, List.replicate 11 false,
          List.replicate 2 false, List.replicate 1 false].flatten ++
          []))))))) true).bind encodeTeds =
      .ok (preambleBits ++ ([List.replicate 14 false,
        List.replicate 15 false, List.replicate 5 false,
        List.replicate 6 false, List.replicate 24 false,
        List.replicate 2 false,
        [true, false, false, true, true, false, false, false]].flatten ++
        ([[false], [false]].flatten ++
        ([List.replicate 16 false, List.replicate 8 false].flatten ++
        ([List.replicate 2 false, List.replicate 6 false, [], [], [],
          List.replicate 1 false, [false]].flatten ++
        ([List.replicate 8 false, List.replicate 5 false].flatten ++
        ([List.replicate 16 false, List.replicate 15 false,
          List.replicate 12 false, List.replicate 11 false,
          List.replicate 2 false, List.replicate 1 false].flatten ++
          []))))))) :=
  accel_basic_roundtrip (List.replicate 14 false) (List.replicate 15 false)
    (List.replicate 5 false) (List.replicate 6 false) (List.replicate 24 false)
    (List.replicate 2 false) [true, false, false, true, true, false, false, false]
    (List.replicate 16 false) (List.replicate 8 false) (List.replicate 2 false)
    (List.replicate 6 false) (List.replicate 1 false) (List.replicate 8 false)
    (List.replicate 5 false) (List.replicate 16 false) (List.replicate 15 false)
    (List.replicate 12 false) (List.replicate 11 false) (List.replicate 2 false)
    (List.replicate 1 false) [] (by decide) (by decide) (by decide) (by decide)
    (by decide) (by decide) (by decide) (by decide) (by decide) (by decide)
    (by decide) (by decide) (by decide) (by decide) (by decide) (by decide)
    (by decide) (by decide) (by decide) (by decide) (by decide) (by decide)

end Claims

end SDLMA
